import Mathlib

/-!
Verification of the AVL-tree ordered map (`src/tree/avl/{mod,node,iter}.rs`)
and of the Bloom filter (`src/set/filter/bloom.rs`) of the basalgo repository.

The tree embedding: Rust's `Option<Box<AVLTreeNode<K, V>>>` child slot becomes
the inductive `Node` (with `Node.nil` for the empty slot), keeping the cached
`height` field of every node.  Parent back-pointers are non-owning and used
only to navigate upward; they are embedded as an explicit context `Ctx` (the
chain of ancestor frames of a node, i.e. exactly the information the parent
chain gives access to).  Machine integers: `height : u32` and `size : usize`
are modelled as `Nat` (their arithmetic here is a `+ 1` and a `max`, which
cannot wrap for any tree that fits in memory); the cast `as i8` inside
`balance_factor` is modelled exactly by two's-complement truncation `toI8`.
-/

set_option maxHeartbeats 1600000

namespace Basalgo

/-- Two's complement truncation of an integer to 8 bits, modelling the Rust
cast `as i8` (the `u32 as i64` widenings before the subtraction are exact). -/
def toI8 (x : Int) : Int := (x + 128) % 256 - 128

/-- Shallow embedding of a child slot `Option<Box<AVLTreeNode<K, V>>>`
(`src/tree/avl/node.rs`): `nil` is the empty slot, `node l k v r h` a node
owning subtrees `l` and `r` and caching its height `h`. -/
inductive Node (K V : Type) : Type where
  | nil : Node K V
  | node (left : Node K V) (key : K) (value : V) (right : Node K V) (height : Nat) : Node K V
deriving DecidableEq

namespace Node

variable {K V : Type}

/-- Cached height of the subtree in a slot; an absent child has height 0
(`left_height`/`right_height` in node.rs return 0 for `None`). -/
def height : Node K V → Nat
  | nil => 0
  | node _ _ _ _ h => h

/-- Left child slot of a node (empty slot for `nil`). -/
def left_child : Node K V → Node K V
  | nil => nil
  | node l _ _ _ _ => l

/-- Right child slot of a node (empty slot for `nil`). -/
def right_child : Node K V → Node K V
  | nil => nil
  | node _ _ _ r _ => r

/-- `AVLTreeNode::left_height`: cached height of the left child, 0 if absent. -/
def left_height (t : Node K V) : Nat := t.left_child.height

/-- `AVLTreeNode::right_height`: cached height of the right child, 0 if absent. -/
def right_height (t : Node K V) : Nat := t.right_child.height

/-- `AVLTreeNode::update_height`: recompute the cached height of this node
as `1 + max(left_height, right_height)`. -/
def update_height : Node K V → Node K V
  | nil => nil
  | node l k v r _ => node l k v r (1 + max l.height r.height)

/-- `AVLTreeNode::balance_factor`: `(left_height as i64 - right_height as i64) as i8`. -/
def balance_factor (t : Node K V) : Int :=
  toI8 ((t.left_height : Int) - (t.right_height : Int))

/-- Whether the slot is empty. -/
def isNil : Node K V → Bool
  | nil => true
  | node _ _ _ _ _ => false

/-- Number of nodes in the subtree. -/
def size : Node K V → Nat
  | nil => 0
  | node l _ _ r _ => size l + size r + 1

/-- In-order list of the (key, value) entries of the subtree. -/
def inorder : Node K V → List (K × V)
  | nil => []
  | node l k v r _ => inorder l ++ (k, v) :: inorder r

/-- `AVLTreeNode::find_leftmost_node`, projected to the entry it holds
(`none` when called on an empty slot; the Rust function is only called on
nodes, via `min()` and the iterator). -/
def find_leftmost_node : Node K V → Option (K × V)
  | nil => none
  | node nil k v _ _ => some (k, v)
  | node (node a b c d e) _ _ _ _ => find_leftmost_node (node a b c d e)

/-- `AVLTreeNode::find_rightmost_node`, projected to the entry it holds. -/
def find_rightmost_node : Node K V → Option (K × V)
  | nil => none
  | node _ k v nil _ => some (k, v)
  | node _ _ _ (node a b c d e) _ => find_rightmost_node (node a b c d e)

/-- `AVLTreeNode::rotate_left` on a slot.  Empty slot and missing right child
are no-ops (the guard `let Some(...) else return`).  Otherwise the right child
becomes the new slot root; heights of the demoted root and then of the new
root are recomputed, exactly as the two `update_height` calls do. -/
def rotate_left : Node K V → Node K V
  | nil => nil
  | node l k v nil h => node l k v nil h
  | node l k v (node rl rk rv rr _) _ =>
      node (node l k v rl (1 + max l.height rl.height)) rk rv rr
        (1 + max (1 + max l.height rl.height) rr.height)

/-- `AVLTreeNode::rotate_right` on a slot (mirror of `rotate_left`). -/
def rotate_right : Node K V → Node K V
  | nil => nil
  | node nil k v r h => node nil k v r h
  | node (node ll lk lv lr _) k v r _ =>
      node ll lk lv (node lr k v r (1 + max lr.height r.height))
        (1 + max ll.height (1 + max lr.height r.height))

/-- `AVLTreeNode::big_rotate_left`: rotate the right child right, then rotate
the slot left (no-op on an empty slot). -/
def big_rotate_left : Node K V → Node K V
  | nil => nil
  | node l k v r h => rotate_left (node l k v (rotate_right r) h)

/-- `AVLTreeNode::big_rotate_right`: rotate the left child left, then rotate
the slot right (no-op on an empty slot). -/
def big_rotate_right : Node K V → Node K V
  | nil => nil
  | node l k v r h => rotate_right (node (rotate_left l) k v r h)

/-- The skeleton of a subtree: keys, structure and cached heights, with the
stored values erased (used to state that an operation performs no structural
change and touches no height). -/
def shape : Node K V → Node K Unit
  | nil => nil
  | node l k _ r h => node (shape l) k () (shape r) h

/-- The key held by the node in a slot, if any. -/
def keyOf : Node K V → Option K
  | nil => none
  | node _ k _ _ _ => some k

end Node

/-- The rotation-selection step of `update_heights_and_rebalance`
(mod.rs lines 158-186): at a visited node whose balance factor is -2 the
right child's balance factor selects `rotate_left` (child factor -1 or 0) or
`big_rotate_left` (child factor 1); symmetrically at +2 the left child's
factor selects `rotate_right` (1 or 0) or `big_rotate_right` (-1); in every
other situation nothing is rotated.  The `unwrap_or(0)` on the child factor
coincides with `balance_factor nil = 0`. -/
def rebalanceRotate {K V : Type} (t : Node K V) : Node K V :=
  if t.balance_factor = -2 then
    if t.right_child.balance_factor = -1 ∨ t.right_child.balance_factor = 0 then t.rotate_left
    else if t.right_child.balance_factor = 1 then t.big_rotate_left
    else t
  else if t.balance_factor = 2 then
    if t.left_child.balance_factor = 1 ∨ t.left_child.balance_factor = 0 then t.rotate_right
    else if t.left_child.balance_factor = -1 then t.big_rotate_right
    else t
  else t

/-- Whether the rotation performed by `rebalanceRotate` actually restructures
the slot.  When it does, the old slot root is re-parented below the new one,
so the walk's next step (`current_node.parent`) revisits the same slot; when
it does not (balance factor not ±2, child factor outside {-1,0,1}, or a
rotation whose guard makes it a no-op), the walk moves to the original
parent.  A (big) left rotation restructures exactly when the right child is
present, and mirrorwise. -/
def rotationFires {K V : Type} (t : Node K V) : Bool :=
  if t.balance_factor = -2 then
    !t.right_child.isNil &&
      decide (t.right_child.balance_factor = -1 ∨ t.right_child.balance_factor = 0 ∨
        t.right_child.balance_factor = 1)
  else if t.balance_factor = 2 then
    !t.left_child.isNil &&
      decide (t.left_child.balance_factor = 1 ∨ t.left_child.balance_factor = 0 ∨
        t.left_child.balance_factor = -1)
  else false

/-- One slot's share of the `update_heights_and_rebalance` loop: recompute the
height of the visited node, rotate if the balance factor demands it, and — if
the rotation re-parented the visited node below a new slot root — run the loop
body again at the same slot (the walk's next `parent` step lands on the new
root, which occupies the same slot).  The fuel bounds the number of
revisits; `fixSlot` supplies more than enough (on every tree the operations
reach, a rotated slot is in tolerance again, proved below). -/
def fixSlotAux {K V : Type} : Nat → Node K V → Node K V
  | 0, t => t
  | fuel + 1, t =>
    let t1 := t.update_height
    if rotationFires t1 then fixSlotAux fuel (rebalanceRotate t1) else t1

/-- Processing of one slot by the rebalancing walk, with its revisits. -/
def fixSlot {K V : Type} (t : Node K V) : Node K V := fixSlotAux (t.size + 1) t

/-- The ancestor chain of a slot: everything the parent back-pointers give
access to.  `inLeft k v r h up` says the slot is the left child of a node
with key `k`, value `v`, right subtree `r` and cached height `h`, whose own
ancestor chain is `up`; `inRight` mirrors; `top` is the root slot. -/
inductive Ctx (K V : Type) : Type where
  | top : Ctx K V
  | inLeft (key : K) (value : V) (right : Node K V) (height : Nat) (up : Ctx K V) : Ctx K V
  | inRight (key : K) (value : V) (left : Node K V) (height : Nat) (up : Ctx K V) : Ctx K V
deriving DecidableEq

/-- Reassemble the whole tree from a slot's content and its ancestor chain. -/
def plug {K V : Type} : Ctx K V → Node K V → Node K V
  | .top, t => t
  | .inLeft k v r h c, t => plug c (.node t k v r h)
  | .inRight k v l h c, t => plug c (.node l k v t h)

/-- `AvlTree::update_heights_and_rebalance` (mod.rs lines 149-194): walk from
a start node up the parent chain to the root, at every visited node
recomputing the height and rotating where the balance factor is out of
tolerance (`fixSlot` is one slot's processing including the revisit a
rotation causes).  The walk returns the whole rebuilt tree.  The
`stop_factor` argument mirrors the Rust `_stop_factor: i8` parameter, which
the body never reads — insertion passes 0 and the removal paths pass 1, but
the walk always continues to the root. -/
def update_heights_and_rebalance {K V : Type} (stop_factor : Int) :
    Ctx K V → Node K V → Node K V
  | .top, t => fixSlot t
  | .inLeft k v r h c, t => update_heights_and_rebalance stop_factor c (.node (fixSlot t) k v r h)
  | .inRight k v l h c, t => update_heights_and_rebalance stop_factor c (.node l k v (fixSlot t) h)

variable {K V : Type}

/-- `AvlTree::insert` descent loop (mod.rs lines 31-63), carried out on a slot
together with its ancestor chain: descend by comparison; on an equal key
replace the value in place and return the old one (no height update, no
rebalancing, the tree is reassembled untouched); at an empty slot link a
fresh node of height 1 and, unless the new node is the root, run
`update_heights_and_rebalance` with stop factor 0 starting at its parent. -/
def insertDescend [LinearOrder K] (k : K) (v : V) :
    Ctx K V → Node K V → Node K V × Option V
  | c, .nil =>
    (match c with
     | .top => .node .nil k v .nil 1
     | .inLeft pk pv pr ph c2 =>
        update_heights_and_rebalance 0 c2 (.node (.node .nil k v .nil 1) pk pv pr ph)
     | .inRight pk pv pl ph c2 =>
        update_heights_and_rebalance 0 c2 (.node pl pk pv (.node .nil k v .nil 1) ph),
     none)
  | c, .node l key val r h =>
    if k < key then insertDescend k v (.inLeft key val r h c) l
    else if key < k then insertDescend k v (.inRight key val l h c) r
    else (plug c (.node l key v r h), some val)

/-- Structural-recursion form of the insert routine: the same descent, with
the walk's per-slot processing applied to each ancestor as the recursion
unwinds (the walk visits exactly the parent of the new leaf and its
ancestors — proved equal to `insertDescend` below). -/
def insertGo [LinearOrder K] (t : Node K V) (k : K) (v : V) : Node K V × Option V :=
  match t with
  | .nil => (.node .nil k v .nil 1, none)
  | .node l key val r h =>
    if k < key then
      match insertGo l k v with
      | (l2, none) => (fixSlot (.node l2 key val r h), none)
      | (l2, some ov) => (.node l2 key val r h, some ov)
    else if key < k then
      match insertGo r k v with
      | (r2, none) => (fixSlot (.node l key val r2 h), none)
      | (r2, some ov) => (.node l key val r2 h, some ov)
    else (.node l key v r h, some val)

/-- `AvlTree::get` (mod.rs lines 65-75): pure BST descent by comparison. -/
def getGo [LinearOrder K] (key : K) : Node K V → Option V
  | .nil => none
  | .node l k v r _ =>
    if key < k then getGo key l
    else if k < key then getGo key r
    else some v

/-- The successor-splice loop of `remove_two_children_node` restricted to the
removed node's right subtree: take out the leftmost node (returning its key,
value and stale cached height), promote its right child into the hole, and
apply the walk's per-slot processing to each node on the path from the
former successor's parent up to the subtree root (the removal walk starts at
the successor's original parent and climbs through exactly these nodes
before reaching the installed successor). -/
def extractLeftmost : Node K V → Option ((K × V × Nat) × Node K V)
  | .nil => none
  | .node .nil k v r h => some ((k, v, h), r)
  | .node (.node a b c d e) k v r h =>
    (extractLeftmost (.node a b c d e)).map fun p => (p.1, fixSlot (.node p.2 k v r h))

/-- Dispatch of a found node to the three removal cases
(mod.rs lines 104-110): a leaf is detached (`remove_leaf_node`), a node with
both children is replaced by its in-order successor
(`remove_two_children_node`, via `extractLeftmost`), any other node is
replaced by its sole child (`remove_one_child_node`).  The returned value is
the removed node's. -/
def removeDispatch (l : Node K V) (v : V) (r : Node K V) : Option V × Node K V :=
  match l, r with
  | .nil, .nil => (some v, .nil)
  | .nil, .node a b c d e => (some v, .node a b c d e)
  | .node a b c d e, .nil => (some v, .node a b c d e)
  | .node a1 b1 c1 d1 e1, .node a2 b2 c2 d2 e2 =>
    match extractLeftmost (.node a2 b2 c2 d2 e2) with
    | some ((ks, vs, hs), r2) =>
      (some v, fixSlot (.node (.node a1 b1 c1 d1 e1) ks vs r2 hs))
    | none => (some v, .nil)

/-- `AvlTree::remove` (mod.rs lines 81-111) in structural-recursion form:
descend to the key; absent keys change nothing; a found node is handled by
`removeDispatch`, where in the two-children case the in-order successor
inherits the left subtree and the fixed-up right subtree and keeps its stale
cached height until the walk (starting at the successor's position)
recomputes it.  Each ancestor of the removed slot then gets the walk's
per-slot processing, matching the `update_heights_and_rebalance` calls with
stop factor 1. -/
def removeGo [LinearOrder K] (key : K) : Node K V → Option V × Node K V
  | .nil => (none, .nil)
  | .node l k v r h =>
    if key < k then
      match removeGo key l with
      | (none, _) => (none, .node l k v r h)
      | (some ov, l2) => (some ov, fixSlot (.node l2 k v r h))
    else if k < key then
      match removeGo key r with
      | (none, _) => (none, .node l k v r h)
      | (some ov, r2) => (some ov, fixSlot (.node l k v r2 h))
    else removeDispatch l v r

/-- `AvlTree<K, V>`: the root slot and the running element count
(mod.rs lines 18-21). -/
structure AvlTree (K V : Type) where
  root : Node K V
  size : Nat
deriving DecidableEq

namespace AvlTree

/-- `AvlTree::new`: empty root, size 0. -/
def new : AvlTree K V := ⟨.nil, 0⟩

/-- `AvlTree::insert`: run the descent (with rebalancing walk) from the root
slot; a fresh insertion increments `size` and returns `None`, replacing an
existing key leaves `size` alone and returns the old value. -/
def insert [LinearOrder K] (t : AvlTree K V) (k : K) (v : V) : AvlTree K V × Option V :=
  match insertDescend k v .top t.root with
  | (r, none) => (⟨r, t.size + 1⟩, none)
  | (r, some ov) => (⟨r, t.size⟩, some ov)

/-- `AvlTree::get`. -/
def get [LinearOrder K] (t : AvlTree K V) (k : K) : Option V := getGo k t.root

/-- `AvlTree::contains`: `get(key).is_some()`. -/
def contains [LinearOrder K] (t : AvlTree K V) (k : K) : Bool := (t.get k).isSome

/-- `AvlTree::remove`: an absent key returns `None` with the tree untouched
(the early `?` return fires before `size` is decremented); a found key
decrements `size` and dispatches to the three removal cases. -/
def remove [LinearOrder K] (t : AvlTree K V) (k : K) : AvlTree K V × Option V :=
  match removeGo k t.root with
  | (none, _) => (t, none)
  | (some ov, r) => (⟨r, t.size - 1⟩, some ov)

/-- `AvlTree::min`: entry of the leftmost node, `None` on an empty tree. -/
def min (t : AvlTree K V) : Option (K × V) := t.root.find_leftmost_node

/-- `AvlTree::max`: entry of the rightmost node, `None` on an empty tree. -/
def max (t : AvlTree K V) : Option (K × V) := t.root.find_rightmost_node

/-- `AvlTree::is_empty`: `size == 0`. -/
def is_empty (t : AvlTree K V) : Bool := t.size == 0

end AvlTree

/-- Descent to the leftmost node of a subtree, carrying the context — the
iterator's `find_leftmost_node` (it walks `left` links, each step recording
the parent relationship the real code keeps as a back-pointer). -/
def leftmostPos : Ctx K V → Node K V → Ctx K V × Node K V
  | c, .node (.node a b cc d e) k v r h => leftmostPos (.inLeft k v r h c) (.node a b cc d e)
  | c, t => (c, t)

/-- The upward phase of `AvlTreeIterator::find_successor` (iter.rs lines
53-71): climb the parent chain while the current node is its parent's right
child; the first parent reached from a left child is the successor; reaching
the root from the right spine ends the iteration. -/
def walkUpWhileRightChild : Ctx K V → Node K V → Option (Ctx K V × Node K V)
  | .top, _ => none
  | .inRight pk pv pl ph c, cur => walkUpWhileRightChild c (.node pl pk pv cur ph)
  | .inLeft pk pv pr ph c, cur => some (c, .node cur pk pv pr ph)

/-- `AvlTreeIterator::find_successor`: the leftmost node of the right subtree
when there is one, otherwise the first ancestor holding the current node in
its left subtree. -/
def succPos : Ctx K V × Node K V → Option (Ctx K V × Node K V)
  | (c, .node l k v (.node a b cc d e) h) =>
    some (leftmostPos (.inRight k v l h c) (.node a b cc d e))
  | (c, .node l k v .nil h) => walkUpWhileRightChild c (.node l k v .nil h)
  | (_, .nil) => none

/-- `AvlTreeIterator::new`: the first yielded node is the leftmost node of
the root (no node at all on an empty tree). -/
def startPos (t : Node K V) : Option (Ctx K V × Node K V) :=
  match t with
  | .nil => none
  | .node a b c d e => some (leftmostPos .top (.node a b c d e))

/-- Pulling `next` repeatedly on the iterator: each call yields the entry of
the current node and advances to its successor.  The fuel is the number of
times the client pulls; the iterator is exhausted (yields nothing more) once
`find_successor` returns `None`. -/
def emitNexts : Nat → Option (Ctx K V × Node K V) → List (K × V)
  | 0, _ => []
  | _ + 1, none => []
  | _ + 1, some (_, .nil) => []
  | fuel + 1, some (c, .node l k v r h) =>
    (k, v) :: emitNexts fuel (succPos (c, .node l k v r h))

/-- `AvlTree::iter` pulled `fuel` times: the key/value projection of the
in-order walk (`get_key_value`). -/
def AvlTree.iterList (t : AvlTree K V) (fuel : Nat) : List (K × V) :=
  emitNexts fuel (startPos t.root)

/-- `AvlTree::keys` pulled `fuel` times: the same walk under the `get_key`
projection. -/
def AvlTree.keysList (t : AvlTree K V) (fuel : Nat) : List K :=
  (t.iterList fuel).map Prod.fst

/-- `AvlTree::values` pulled `fuel` times: the same walk under the
`get_value` projection. -/
def AvlTree.valuesList (t : AvlTree K V) (fuel : Nat) : List V :=
  (t.iterList fuel).map Prod.snd

/-- Entries contributed by the ancestor chain to the in-order sequence after
the focus subtree (a proof device for the iterator: the part of the in-order
traversal that lies upward of the focus). -/
def upList : Ctx K V → List (K × V)
  | .top => []
  | .inLeft k v r _ c => (k, v) :: r.inorder ++ upList c
  | .inRight _ _ _ _ c => upList c

/-- Entries from the focused node (exclusive of its already-visited left
subtree) to the end of the in-order traversal. -/
def afterList : Ctx K V × Node K V → List (K × V)
  | (c, .nil) => upList c
  | (c, .node _ k v r _) => (k, v) :: r.inorder ++ upList c

/-- A public operation on the map: insert a binding or remove a key. -/
inductive Op (K V : Type) where
  | ins (key : K) (value : V) : Op K V
  | del (key : K) : Op K V

/-- Apply one public mutating operation to the tree. -/
def applyOp [LinearOrder K] (t : AvlTree K V) : Op K V → AvlTree K V
  | .ins k v => (t.insert k v).1
  | .del k => (t.remove k).1

/-- The tree reached from the empty tree by a sequence of public operations. -/
def run [LinearOrder K] (ops : List (Op K V)) : AvlTree K V :=
  ops.foldl applyOp AvlTree.new

namespace RefMap

/-- Modelled from the spec: the reference ordered map of the differential
property in §8, represented as a key-sorted association list.  Lookup scans
for the key. -/
def get [DecidableEq K] (k : K) : List (K × V) → Option V
  | [] => none
  | (k2, v2) :: m => if k = k2 then some v2 else get k m

/-- Modelled from the spec: reference-map insertion into the sorted list,
returning the displaced value for an existing key (last-write-wins). -/
def insert [LinearOrder K] (k : K) (v : V) : List (K × V) → List (K × V) × Option V
  | [] => ([(k, v)], none)
  | (k2, v2) :: m =>
    if k < k2 then ((k, v) :: (k2, v2) :: m, none)
    else if k2 < k then
      let p := insert k v m
      ((k2, v2) :: p.1, p.2)
    else ((k, v) :: m, some v2)

/-- Modelled from the spec: reference-map removal from the sorted list,
returning the removed value when the key was present. -/
def erase [LinearOrder K] (k : K) : List (K × V) → List (K × V) × Option V
  | [] => ([], none)
  | (k2, v2) :: m =>
    if k < k2 then ((k2, v2) :: m, none)
    else if k2 < k then
      let p := erase k m
      ((k2, v2) :: p.1, p.2)
    else (m, some v2)

end RefMap

/-- Apply one public operation to the reference map. -/
def applyModelOp [LinearOrder K] (m : List (K × V)) : Op K V → List (K × V)
  | .ins k v => (RefMap.insert k v m).1
  | .del k => (RefMap.erase k m).1

/-- The reference map reached from the empty map by a sequence of operations. -/
def runModel [LinearOrder K] (ops : List (Op K V)) : List (K × V) :=
  ops.foldl applyModelOp []

/-- Strictly ascending keys of an association list. -/
def SortedKeys [LT K] (m : List (K × V)) : Prop := m.Pairwise (fun a b => a.1 < b.1)

/-- A predicate holding at every node of a subtree. -/
inductive AllNodes (p : Node K V → Prop) : Node K V → Prop where
  | nil : AllNodes p .nil
  | node {l r : Node K V} {k : K} {v : V} {h : Nat} :
      AllNodes p l → AllNodes p r → p (.node l k v r h) → AllNodes p (.node l k v r h)

/-- A predicate holding for every key of a subtree. -/
inductive ForallKeys (p : K → Prop) : Node K V → Prop where
  | nil : ForallKeys p .nil
  | node {l r : Node K V} {k : K} {v : V} {h : Nat} :
      ForallKeys p l → p k → ForallKeys p r → ForallKeys p (.node l k v r h)

/-- The binary-search-tree ordering: at every node all keys of the left
subtree are strictly below the node's key and all keys of the right subtree
strictly above. -/
inductive BST [LT K] : Node K V → Prop where
  | nil : BST .nil
  | node {l r : Node K V} {k : K} {v : V} {h : Nat} :
      ForallKeys (· < k) l → ForallKeys (k < ·) r → BST l → BST r → BST (.node l k v r h)

/-- Every cached height equals one plus the maximum of the children's. -/
inductive HeightsOk : Node K V → Prop where
  | nil : HeightsOk .nil
  | node {l r : Node K V} {k : K} {v : V} {h : Nat} :
      HeightsOk l → HeightsOk r → h = 1 + max l.height r.height →
      HeightsOk (.node l k v r h)

/-- The AVL balance condition on the cached heights, at every node. -/
inductive BalancedT : Node K V → Prop where
  | nil : BalancedT .nil
  | node {l r : Node K V} {k : K} {v : V} {h : Nat} :
      BalancedT l → BalancedT r → l.height ≤ r.height + 1 → r.height ≤ l.height + 1 →
      BalancedT (.node l k v r h)

/-- The full invariant of a subtree: correct cached heights, AVL balance,
strictly sorted in-order sequence. -/
def Avl [LT K] (t : Node K V) : Prop :=
  HeightsOk t ∧ BalancedT t ∧ SortedKeys t.inorder

/-- The invariant of the container: the root satisfies `Avl` and the running
count equals the number of stored entries. -/
def Inv [LT K] (t : AvlTree K V) : Prop := Avl t.root ∧ t.size = t.root.inorder.length

namespace Bloom

/-- `BloomFilter` (src/set/filter/bloom.rs): a 128-bit word.  All values the
operations produce stay below `2 ^ 128`, so `Nat` arithmetic is exact. -/
structure BloomFilter where
  bits : Nat

/-- `BloomFilter::new`. -/
def new : BloomFilter := ⟨0⟩

/-- `BloomFilter::insert`: for each seed `i` in `0..2`, set bit
`hash(item, i) % 128` (the hash function is a parameter of the embedding;
the Rust `DefaultHasher` computes a value determined by the item and the
seed). -/
def insertB {α : Type} (hash : α → Nat → Nat) (f : BloomFilter) (item : α) : BloomFilter :=
  ⟨(List.range 2).foldl (fun b i => b ||| (1 <<< (hash item i % 128))) f.bits⟩

/-- `BloomFilter::contains`: false as soon as one of the two probed bits is
clear, true when both are set. -/
def containsB {α : Type} (hash : α → Nat → Nat) (f : BloomFilter) (item : α) : Bool :=
  (List.range 2).all fun i => !(f.bits &&& (1 <<< (hash item i % 128)) == 0)

/-- `BloomFilter::clear`: reset all bits. -/
def clear (_ : BloomFilter) : BloomFilter := ⟨0⟩

/-- A call against the filter: insert an item or clear it. -/
inductive BOp (α : Type) where
  | ins (item : α) : BOp α
  | clr : BOp α
deriving DecidableEq

/-- Apply one filter call. -/
def applyBOp {α : Type} (hash : α → Nat → Nat) (f : BloomFilter) : BOp α → BloomFilter
  | .ins x => insertB hash f x
  | .clr => clear f

end Bloom

/-! Basic equations for the node accessors. -/

@[simp] theorem Node.height_nil : (Node.nil : Node K V).height = 0 := rfl

@[simp] theorem Node.height_node (l : Node K V) (k : K) (v : V) (r : Node K V) (h : Nat) :
    (Node.node l k v r h).height = h := rfl

@[simp] theorem Node.left_child_node (l : Node K V) (k : K) (v : V) (r : Node K V) (h : Nat) :
    (Node.node l k v r h).left_child = l := rfl

@[simp] theorem Node.right_child_node (l : Node K V) (k : K) (v : V) (r : Node K V) (h : Nat) :
    (Node.node l k v r h).right_child = r := rfl

@[simp] theorem Node.left_height_node (l : Node K V) (k : K) (v : V) (r : Node K V) (h : Nat) :
    (Node.node l k v r h).left_height = l.height := rfl

@[simp] theorem Node.right_height_node (l : Node K V) (k : K) (v : V) (r : Node K V) (h : Nat) :
    (Node.node l k v r h).right_height = r.height := rfl

@[simp] theorem Node.update_height_nil : (Node.nil : Node K V).update_height = Node.nil := rfl

@[simp] theorem Node.update_height_node (l : Node K V) (k : K) (v : V) (r : Node K V) (h : Nat) :
    (Node.node l k v r h).update_height = Node.node l k v r (1 + max l.height r.height) := rfl

@[simp] theorem Node.isNil_nil : (Node.nil : Node K V).isNil = true := rfl

@[simp] theorem Node.isNil_node (l : Node K V) (k : K) (v : V) (r : Node K V) (h : Nat) :
    (Node.node l k v r h).isNil = false := rfl

@[simp] theorem Node.inorder_nil : (Node.nil : Node K V).inorder = [] := rfl

@[simp] theorem Node.inorder_node (l : Node K V) (k : K) (v : V) (r : Node K V) (h : Nat) :
    (Node.node l k v r h).inorder = l.inorder ++ (k, v) :: r.inorder := rfl

@[simp] theorem Node.size_nil : (Node.nil : Node K V).size = 0 := rfl

@[simp] theorem Node.size_node (l : Node K V) (k : K) (v : V) (r : Node K V) (h : Nat) :
    (Node.node l k v r h).size = l.size + r.size + 1 := rfl

theorem toI8_small {x : Int} (h1 : -128 ≤ x) (h2 : x ≤ 127) : toI8 x = x := by
  unfold toI8; omega

@[simp] theorem Node.balance_factor_nil : (Node.nil : Node K V).balance_factor = 0 := by
  show toI8 (((0 : Nat) : Int) - ((0 : Nat) : Int)) = 0
  unfold toI8; omega

/-- On a node whose children's cached heights are within 127 of each other —
in particular whenever they are within the tolerance the walk ever meets —
the `as i8` cast in `balance_factor` is the identity. -/
theorem Node.balance_factor_node (l : Node K V) (k : K) (v : V) (r : Node K V) (h : Nat)
    (hb1 : l.height ≤ r.height + 127) (hb2 : r.height ≤ l.height + 127) :
    (Node.node l k v r h).balance_factor = (l.height : Int) - r.height := by
  show toI8 _ = _
  rw [Node.left_height_node, Node.right_height_node]
  exact toI8_small (by omega) (by omega)

theorem HeightsOk.height_pos {t : Node K V} (hk : HeightsOk t) (hne : t ≠ Node.nil) :
    1 ≤ t.height := by
  cases hk with
  | nil => exact absurd rfl hne
  | node _ _ he => simp [he]

theorem HeightsOk.eq_nil_of_height_eq_zero {t : Node K V} (hk : HeightsOk t)
    (h0 : t.height = 0) : t = Node.nil := by
  cases hk with
  | nil => rfl
  | node _ _ he => simp [he] at h0

/-! Rotations, the rotation-selection step and the slot processing keep the
in-order sequence of entries unchanged. -/

@[simp] theorem Node.rotate_left_nil : (Node.nil : Node K V).rotate_left = Node.nil := rfl

@[simp] theorem Node.rotate_left_no_right (l : Node K V) (k : K) (v : V) (h : Nat) :
    (Node.node l k v Node.nil h).rotate_left = Node.node l k v Node.nil h := rfl

theorem Node.rotate_left_eq (l : Node K V) (k : K) (v : V) (rl : Node K V) (rk : K) (rv : V)
    (rr : Node K V) (hr h : Nat) :
    (Node.node l k v (Node.node rl rk rv rr hr) h).rotate_left =
      Node.node (Node.node l k v rl (1 + max l.height rl.height)) rk rv rr
        (1 + max (1 + max l.height rl.height) rr.height) := rfl

@[simp] theorem Node.rotate_right_nil : (Node.nil : Node K V).rotate_right = Node.nil := rfl

@[simp] theorem Node.rotate_right_no_left (k : K) (v : V) (r : Node K V) (h : Nat) :
    (Node.node Node.nil k v r h).rotate_right = Node.node Node.nil k v r h := rfl

theorem Node.rotate_right_eq (ll : Node K V) (lk : K) (lv : V) (lr : Node K V) (hl : Nat)
    (k : K) (v : V) (r : Node K V) (h : Nat) :
    (Node.node (Node.node ll lk lv lr hl) k v r h).rotate_right =
      Node.node ll lk lv (Node.node lr k v r (1 + max lr.height r.height))
        (1 + max ll.height (1 + max lr.height r.height)) := rfl

theorem Node.big_rotate_left_eq (l : Node K V) (k : K) (v : V) (r : Node K V) (h : Nat) :
    (Node.node l k v r h).big_rotate_left =
      Node.rotate_left (Node.node l k v r.rotate_right h) := rfl

theorem Node.big_rotate_right_eq (l : Node K V) (k : K) (v : V) (r : Node K V) (h : Nat) :
    (Node.node l k v r h).big_rotate_right =
      Node.rotate_right (Node.node l.rotate_left k v r h) := rfl

theorem Node.inorder_rotate_left (t : Node K V) : t.rotate_left.inorder = t.inorder := by
  match t with
  | .nil => rfl
  | .node l k v .nil h => rfl
  | .node l k v (.node rl rk rv rr hr) h => rw [Node.rotate_left_eq]; simp

theorem Node.inorder_rotate_right (t : Node K V) : t.rotate_right.inorder = t.inorder := by
  match t with
  | .nil => rfl
  | .node .nil k v r h => rfl
  | .node (.node ll lk lv lr hl) k v r h => rw [Node.rotate_right_eq]; simp

theorem Node.inorder_big_rotate_left (t : Node K V) :
    t.big_rotate_left.inorder = t.inorder := by
  match t with
  | .nil => rfl
  | .node l k v r h =>
    rw [Node.big_rotate_left_eq, Node.inorder_rotate_left]
    simp [Node.inorder_rotate_right r]

theorem Node.inorder_big_rotate_right (t : Node K V) :
    t.big_rotate_right.inorder = t.inorder := by
  match t with
  | .nil => rfl
  | .node l k v r h =>
    rw [Node.big_rotate_right_eq, Node.inorder_rotate_right]
    simp [Node.inorder_rotate_left l]

theorem Node.inorder_update_height (t : Node K V) :
    t.update_height.inorder = t.inorder := by
  cases t <;> rfl

theorem inorder_rebalanceRotate (t : Node K V) :
    (rebalanceRotate t).inorder = t.inorder := by
  rw [rebalanceRotate]
  split_ifs <;>
    simp [Node.inorder_rotate_left, Node.inorder_rotate_right,
      Node.inorder_big_rotate_left, Node.inorder_big_rotate_right]

theorem inorder_fixSlotAux (fuel : Nat) (t : Node K V) :
    (fixSlotAux fuel t).inorder = t.inorder := by
  induction fuel generalizing t with
  | zero => rfl
  | succ n ih =>
    rw [fixSlotAux]
    split
    · rw [ih, inorder_rebalanceRotate, Node.inorder_update_height]
    · exact Node.inorder_update_height t

theorem inorder_fixSlot (t : Node K V) : (fixSlot t).inorder = t.inorder :=
  inorder_fixSlotAux _ t

/-! Unfolding the slot processing. -/

theorem fixSlotAux_succ_not (fuel : Nat) (t : Node K V)
    (h : rotationFires t.update_height = false) :
    fixSlotAux (fuel + 1) t = t.update_height := by
  rw [fixSlotAux]; simp [h]

theorem fixSlotAux_succ_fire (fuel : Nat) (t : Node K V)
    (h : rotationFires t.update_height = true) :
    fixSlotAux (fuel + 1) t = fixSlotAux fuel (rebalanceRotate t.update_height) := by
  rw [fixSlotAux]; simp [h]

theorem fixSlot_eq_of_not (t : Node K V) (h : rotationFires t.update_height = false) :
    fixSlot t = t.update_height :=
  fixSlotAux_succ_not _ _ h

theorem fixSlot_eq_of_fire (l : Node K V) (k : K) (v : V) (r : Node K V) (h : Nat)
    (h1 : rotationFires (Node.node l k v r h).update_height = true)
    (h2 : rotationFires
      ((rebalanceRotate (Node.node l k v r h).update_height).update_height) = false) :
    fixSlot (Node.node l k v r h) =
      (rebalanceRotate (Node.node l k v r h).update_height).update_height := by
  show fixSlotAux ((Node.node l k v r h).size + 1) _ = _
  rw [Node.size_node]
  rw [show l.size + r.size + 1 + 1 = (l.size + r.size + 1) + 1 from rfl,
    fixSlotAux_succ_fire _ _ h1,
    show l.size + r.size + 1 = (l.size + r.size) + 1 from rfl,
    fixSlotAux_succ_not _ _ h2]

theorem rotationFires_of_ne (t : Node K V) (h1 : t.balance_factor ≠ -2)
    (h2 : t.balance_factor ≠ 2) : rotationFires t = false := by
  rw [rotationFires]
  simp [h1, h2]

theorem rotationFires_neg2 (t : Node K V) (h1 : t.balance_factor = -2)
    (h2 : t.right_child.isNil = false)
    (h3 : t.right_child.balance_factor = -1 ∨ t.right_child.balance_factor = 0 ∨
      t.right_child.balance_factor = 1) : rotationFires t = true := by
  rw [rotationFires]
  simp [h1, h2, h3]

theorem rotationFires_pos2 (t : Node K V) (h1 : t.balance_factor = 2)
    (h2 : t.left_child.isNil = false)
    (h3 : t.left_child.balance_factor = 1 ∨ t.left_child.balance_factor = 0 ∨
      t.left_child.balance_factor = -1) : rotationFires t = true := by
  rw [rotationFires]
  have : ¬ ((2 : Int) = -2) := by omega
  simp [h1, h2, h3, this]

theorem rebalanceRotate_neg2_single (t : Node K V) (h1 : t.balance_factor = -2)
    (h3 : t.right_child.balance_factor = -1 ∨ t.right_child.balance_factor = 0) :
    rebalanceRotate t = t.rotate_left := by
  rw [rebalanceRotate]
  simp [h1, h3]

theorem rebalanceRotate_neg2_double (t : Node K V) (h1 : t.balance_factor = -2)
    (h3 : t.right_child.balance_factor = 1) :
    rebalanceRotate t = t.big_rotate_left := by
  rw [rebalanceRotate]
  have hne : ¬ (t.right_child.balance_factor = -1 ∨ t.right_child.balance_factor = 0) := by
    rw [h3]; omega
  simp [h1, h3, hne]

theorem rebalanceRotate_pos2_single (t : Node K V) (h1 : t.balance_factor = 2)
    (h3 : t.left_child.balance_factor = 1 ∨ t.left_child.balance_factor = 0) :
    rebalanceRotate t = t.rotate_right := by
  rw [rebalanceRotate]
  have : ¬ ((2 : Int) = -2) := by omega
  simp [h1, h3, this]

theorem max_linear (a b : Nat) : (a ≤ b ∧ max a b = b) ∨ (b ≤ a ∧ max a b = a) := by
  rcases Nat.le_total a b with h | h
  · exact Or.inl ⟨h, Nat.max_eq_right h⟩
  · exact Or.inr ⟨h, Nat.max_eq_left h⟩

theorem rebalanceRotate_pos2_double (t : Node K V) (h1 : t.balance_factor = 2)
    (h3 : t.left_child.balance_factor = -1) :
    rebalanceRotate t = t.big_rotate_right := by
  rw [rebalanceRotate]
  have h2 : ¬ ((2 : Int) = -2) := by omega
  have hne : ¬ (t.left_child.balance_factor = 1 ∨ t.left_child.balance_factor = 0) := by
    rw [h3]; omega
  simp [h1, h3, h2, hne]

/-- Processing of a slot whose right subtree has become two higher than the
left one (the walk's -2 case): the selected rotation restores the balance
and yields a subtree whose height is the right child's old height or one
more. -/
theorem fixSlot_right_heavy {l rl rr : Node K V} (k : K) (v : V) (rk : K) (rv : V)
    (h0 hrc : Nat)
    (hkl : HeightsOk l) (hkrl : HeightsOk rl) (hkrr : HeightsOk rr)
    (bl : BalancedT l) (brl : BalancedT rl) (brr : BalancedT rr)
    (hrceq : hrc = 1 + max rl.height rr.height)
    (hbrl : rl.height ≤ rr.height + 1) (hbrr : rr.height ≤ rl.height + 1)
    (hR : hrc = l.height + 2) :
    HeightsOk (fixSlot (Node.node l k v (Node.node rl rk rv rr hrc) h0)) ∧
    BalancedT (fixSlot (Node.node l k v (Node.node rl rk rv rr hrc) h0)) ∧
    hrc ≤ (fixSlot (Node.node l k v (Node.node rl rk rv rr hrc) h0)).height ∧
    (fixSlot (Node.node l k v (Node.node rl rk rv rr hrc) h0)).height ≤ hrc + 1 := by
  have e1 : (Node.node l k v (Node.node rl rk rv rr hrc) h0).update_height
      = Node.node l k v (Node.node rl rk rv rr hrc) (1 + max l.height hrc) := by simp
  have hbf : (Node.node l k v (Node.node rl rk rv rr hrc)
      (1 + max l.height hrc)).balance_factor = -2 := by
    rw [Node.balance_factor_node _ _ _ _ _ (by simp only [Node.height_node]; omega)
      (by simp only [Node.height_node]; omega)]
    simp only [Node.height_node]; omega
  have hrbf : (Node.node rl rk rv rr hrc).balance_factor = (rl.height : Int) - rr.height :=
    Node.balance_factor_node _ _ _ _ _ (by omega) (by omega)
  have hfire : rotationFires ((Node.node l k v (Node.node rl rk rv rr hrc) h0).update_height)
      = true := by
    rw [e1]
    exact rotationFires_neg2 _ hbf (by simp) (by rw [Node.right_child_node, hrbf]; omega)
  rcases (show rl.height ≤ rr.height ∨ rl.height = rr.height + 1 by omega) with hsub | hsub
  · -- single left rotation: the right child is not left-heavy
    have hrot : rebalanceRotate (Node.node l k v (Node.node rl rk rv rr hrc)
        (1 + max l.height hrc))
        = Node.node (Node.node l k v rl (1 + max l.height rl.height)) rk rv rr
            (1 + max (1 + max l.height rl.height) rr.height) := by
      rw [rebalanceRotate_neg2_single _ hbf (by rw [Node.right_child_node, hrbf]; omega),
        Node.rotate_left_eq]
    have hnf : rotationFires ((Node.node (Node.node l k v rl (1 + max l.height rl.height))
        rk rv rr (1 + max (1 + max l.height rl.height) rr.height)).update_height) = false := by
      simp only [Node.update_height_node, Node.height_node]
      apply rotationFires_of_ne <;>
        rw [Node.balance_factor_node _ _ _ _ _
          (by simp only [Node.height_node]
              rcases max_linear l.height rl.height with ⟨u1, u2⟩ | ⟨u1, u2⟩ <;>
                rcases max_linear rl.height rr.height with ⟨u3, u4⟩ | ⟨u3, u4⟩ <;> omega)
          (by simp only [Node.height_node]
              rcases max_linear l.height rl.height with ⟨u1, u2⟩ | ⟨u1, u2⟩ <;>
                rcases max_linear rl.height rr.height with ⟨u3, u4⟩ | ⟨u3, u4⟩ <;> omega)] <;>
        simp only [Node.height_node] <;>
        rcases max_linear l.height rl.height with ⟨u1, u2⟩ | ⟨u1, u2⟩ <;>
          rcases max_linear rl.height rr.height with ⟨u3, u4⟩ | ⟨u3, u4⟩ <;> omega
    have h2 : rotationFires ((rebalanceRotate
        ((Node.node l k v (Node.node rl rk rv rr hrc) h0).update_height)).update_height)
        = false := by rw [e1, hrot]; exact hnf
    have hfs := fixSlot_eq_of_fire l k v (Node.node rl rk rv rr hrc) h0 hfire h2
    rw [e1, hrot, Node.update_height_node] at hfs
    simp only [Node.height_node] at hfs
    rw [hfs]
    refine ⟨HeightsOk.node (HeightsOk.node hkl hkrl rfl) hkrr rfl,
      BalancedT.node (BalancedT.node bl brl ?_ ?_) brr ?_ ?_, ?_, ?_⟩ <;>
      (try simp only [Node.height_node]) <;>
      rcases max_linear l.height rl.height with ⟨u1, u2⟩ | ⟨u1, u2⟩ <;>
        rcases max_linear rl.height rr.height with ⟨u3, u4⟩ | ⟨u3, u4⟩ <;>
        rcases max_linear (1 + max l.height rl.height) rr.height with ⟨u5, u6⟩ | ⟨u5, u6⟩ <;>
        omega
  · -- composite rotation: the right child is left-heavy
    have hrlpos : rl ≠ Node.nil := by
      intro hn; rw [hn] at hsub; simp at hsub
    rcases rl with _ | ⟨rll, rlk, rlv, rlr, hrlc⟩
    · exact absurd rfl hrlpos
    cases hkrl with
    | node hkrll hkrlr hrlceq =>
    cases brl with
    | node brll brlr hbrl1 hbrl2 =>
    simp only [Node.height_node] at hsub hbrl hbrr hrceq
    have hrot : rebalanceRotate (Node.node l k v
        (Node.node (Node.node rll rlk rlv rlr hrlc) rk rv rr hrc) (1 + max l.height hrc))
        = Node.node (Node.node l k v rll (1 + max l.height rll.height)) rlk rlv
            (Node.node rlr rk rv rr (1 + max rlr.height rr.height))
            (1 + max (1 + max l.height rll.height) (1 + max rlr.height rr.height)) := by
      have hone : (Node.node (Node.node rll rlk rlv rlr hrlc) rk rv rr hrc).balance_factor
          = 1 := by rw [hrbf]; simp only [Node.height_node]; omega
      rw [rebalanceRotate_neg2_double _ hbf (by rw [Node.right_child_node]; exact hone),
        Node.big_rotate_left_eq, Node.rotate_right_eq, Node.rotate_left_eq]
      simp only [Node.height_node]
    have hnf : rotationFires ((Node.node (Node.node l k v rll (1 + max l.height rll.height))
        rlk rlv (Node.node rlr rk rv rr (1 + max rlr.height rr.height))
        (1 + max (1 + max l.height rll.height) (1 + max rlr.height rr.height))).update_height)
        = false := by
      simp only [Node.update_height_node, Node.height_node]
      apply rotationFires_of_ne <;>
        rw [Node.balance_factor_node _ _ _ _ _
          (by simp only [Node.height_node]
              rcases max_linear l.height rll.height with ⟨u1, u2⟩ | ⟨u1, u2⟩ <;>
                rcases max_linear rlr.height rr.height with ⟨u3, u4⟩ | ⟨u3, u4⟩ <;>
                rcases max_linear rll.height rlr.height with ⟨u5, u6⟩ | ⟨u5, u6⟩ <;> omega)
          (by simp only [Node.height_node]
              rcases max_linear l.height rll.height with ⟨u1, u2⟩ | ⟨u1, u2⟩ <;>
                rcases max_linear rlr.height rr.height with ⟨u3, u4⟩ | ⟨u3, u4⟩ <;>
                rcases max_linear rll.height rlr.height with ⟨u5, u6⟩ | ⟨u5, u6⟩ <;> omega)] <;>
        simp only [Node.height_node] <;>
        rcases max_linear l.height rll.height with ⟨u1, u2⟩ | ⟨u1, u2⟩ <;>
          rcases max_linear rlr.height rr.height with ⟨u3, u4⟩ | ⟨u3, u4⟩ <;>
          rcases max_linear rll.height rlr.height with ⟨u5, u6⟩ | ⟨u5, u6⟩ <;> omega
    have h2 : rotationFires ((rebalanceRotate
        ((Node.node l k v (Node.node (Node.node rll rlk rlv rlr hrlc) rk rv rr hrc)
          h0).update_height)).update_height) = false := by
      rw [e1, hrot]; exact hnf
    have hfs := fixSlot_eq_of_fire l k v
      (Node.node (Node.node rll rlk rlv rlr hrlc) rk rv rr hrc) h0 hfire h2
    rw [e1, hrot, Node.update_height_node] at hfs
    simp only [Node.height_node] at hfs
    rw [hfs]
    refine ⟨HeightsOk.node (HeightsOk.node hkl hkrll rfl)
        (HeightsOk.node hkrlr hkrr rfl) rfl,
      BalancedT.node (BalancedT.node bl brll ?_ ?_) (BalancedT.node brlr brr ?_ ?_) ?_ ?_,
      ?_, ?_⟩ <;>
      (try simp only [Node.height_node]) <;>
      rcases max_linear l.height rll.height with ⟨u1, u2⟩ | ⟨u1, u2⟩ <;>
        rcases max_linear rlr.height rr.height with ⟨u3, u4⟩ | ⟨u3, u4⟩ <;>
        rcases max_linear rll.height rlr.height with ⟨u5, u6⟩ | ⟨u5, u6⟩ <;>
        rcases max_linear (1 + max l.height rll.height) (1 + max rlr.height rr.height)
          with ⟨u7, u8⟩ | ⟨u7, u8⟩ <;>
        omega

/-- Processing of a slot whose left subtree has become two higher than the
right one (the walk's +2 case), mirror of `fixSlot_right_heavy`. -/
theorem fixSlot_left_heavy {ll lr r : Node K V} (lk : K) (lv : V) (k : K) (v : V)
    (h0 hlc : Nat)
    (hkll : HeightsOk ll) (hklr : HeightsOk lr) (hkr : HeightsOk r)
    (bll : BalancedT ll) (blr : BalancedT lr) (br : BalancedT r)
    (hlceq : hlc = 1 + max ll.height lr.height)
    (hbll : ll.height ≤ lr.height + 1) (hblr : lr.height ≤ ll.height + 1)
    (hL : hlc = r.height + 2) :
    HeightsOk (fixSlot (Node.node (Node.node ll lk lv lr hlc) k v r h0)) ∧
    BalancedT (fixSlot (Node.node (Node.node ll lk lv lr hlc) k v r h0)) ∧
    hlc ≤ (fixSlot (Node.node (Node.node ll lk lv lr hlc) k v r h0)).height ∧
    (fixSlot (Node.node (Node.node ll lk lv lr hlc) k v r h0)).height ≤ hlc + 1 := by
  have e1 : (Node.node (Node.node ll lk lv lr hlc) k v r h0).update_height
      = Node.node (Node.node ll lk lv lr hlc) k v r (1 + max hlc r.height) := by simp
  have hbf : (Node.node (Node.node ll lk lv lr hlc) k v r
      (1 + max hlc r.height)).balance_factor = 2 := by
    rw [Node.balance_factor_node _ _ _ _ _ (by simp only [Node.height_node]; omega)
      (by simp only [Node.height_node]; omega)]
    simp only [Node.height_node]; omega
  have hlbf : (Node.node ll lk lv lr hlc).balance_factor = (ll.height : Int) - lr.height :=
    Node.balance_factor_node _ _ _ _ _ (by omega) (by omega)
  have hfire : rotationFires ((Node.node (Node.node ll lk lv lr hlc) k v r h0).update_height)
      = true := by
    rw [e1]
    exact rotationFires_pos2 _ hbf (by simp) (by rw [Node.left_child_node, hlbf]; omega)
  rcases (show lr.height ≤ ll.height ∨ lr.height = ll.height + 1 by omega) with hsub | hsub
  · -- single right rotation: the left child is not right-heavy
    have hrot : rebalanceRotate (Node.node (Node.node ll lk lv lr hlc) k v r
        (1 + max hlc r.height))
        = Node.node ll lk lv (Node.node lr k v r (1 + max lr.height r.height))
            (1 + max ll.height (1 + max lr.height r.height)) := by
      rw [rebalanceRotate_pos2_single _ hbf (by rw [Node.left_child_node, hlbf]; omega),
        Node.rotate_right_eq]
    have hnf : rotationFires ((Node.node ll lk lv
        (Node.node lr k v r (1 + max lr.height r.height))
        (1 + max ll.height (1 + max lr.height r.height))).update_height) = false := by
      simp only [Node.update_height_node, Node.height_node]
      apply rotationFires_of_ne <;>
        rw [Node.balance_factor_node _ _ _ _ _
          (by simp only [Node.height_node]
              rcases max_linear lr.height r.height with ⟨u1, u2⟩ | ⟨u1, u2⟩ <;>
                rcases max_linear ll.height lr.height with ⟨u3, u4⟩ | ⟨u3, u4⟩ <;> omega)
          (by simp only [Node.height_node]
              rcases max_linear lr.height r.height with ⟨u1, u2⟩ | ⟨u1, u2⟩ <;>
                rcases max_linear ll.height lr.height with ⟨u3, u4⟩ | ⟨u3, u4⟩ <;> omega)] <;>
        simp only [Node.height_node] <;>
        rcases max_linear lr.height r.height with ⟨u1, u2⟩ | ⟨u1, u2⟩ <;>
          rcases max_linear ll.height lr.height with ⟨u3, u4⟩ | ⟨u3, u4⟩ <;> omega
    have h2 : rotationFires ((rebalanceRotate
        ((Node.node (Node.node ll lk lv lr hlc) k v r h0).update_height)).update_height)
        = false := by rw [e1, hrot]; exact hnf
    have hfs := fixSlot_eq_of_fire (Node.node ll lk lv lr hlc) k v r h0 hfire h2
    rw [e1, hrot, Node.update_height_node] at hfs
    simp only [Node.height_node] at hfs
    rw [hfs]
    refine ⟨HeightsOk.node hkll (HeightsOk.node hklr hkr rfl) rfl,
      BalancedT.node bll (BalancedT.node blr br ?_ ?_) ?_ ?_, ?_, ?_⟩ <;>
      (try simp only [Node.height_node]) <;>
      rcases max_linear lr.height r.height with ⟨u1, u2⟩ | ⟨u1, u2⟩ <;>
        rcases max_linear ll.height lr.height with ⟨u3, u4⟩ | ⟨u3, u4⟩ <;>
        rcases max_linear ll.height (1 + max lr.height r.height) with ⟨u5, u6⟩ | ⟨u5, u6⟩ <;>
        omega
  · -- composite rotation: the left child is right-heavy
    have hlrpos : lr ≠ Node.nil := by
      intro hn; rw [hn] at hsub; simp at hsub
    rcases lr with _ | ⟨lrl, lrk, lrv, lrr, hlrc⟩
    · exact absurd rfl hlrpos
    cases hklr with
    | node hklrl hklrr hlrceq =>
    cases blr with
    | node blrl blrr hblr1 hblr2 =>
    simp only [Node.height_node] at hsub hbll hblr hlceq
    have hrot : rebalanceRotate (Node.node
        (Node.node ll lk lv (Node.node lrl lrk lrv lrr hlrc) hlc) k v r
        (1 + max hlc r.height))
        = Node.node (Node.node ll lk lv lrl (1 + max ll.height lrl.height)) lrk lrv
            (Node.node lrr k v r (1 + max lrr.height r.height))
            (1 + max (1 + max ll.height lrl.height) (1 + max lrr.height r.height)) := by
      have hone : (Node.node ll lk lv (Node.node lrl lrk lrv lrr hlrc) hlc).balance_factor
          = -1 := by rw [hlbf]; simp only [Node.height_node]; omega
      rw [rebalanceRotate_pos2_double _ hbf (by rw [Node.left_child_node]; exact hone),
        Node.big_rotate_right_eq, Node.rotate_left_eq, Node.rotate_right_eq]
      simp only [Node.height_node]
    have hnf : rotationFires ((Node.node
        (Node.node ll lk lv lrl (1 + max ll.height lrl.height)) lrk lrv
        (Node.node lrr k v r (1 + max lrr.height r.height))
        (1 + max (1 + max ll.height lrl.height)
          (1 + max lrr.height r.height))).update_height) = false := by
      simp only [Node.update_height_node, Node.height_node]
      apply rotationFires_of_ne <;>
        rw [Node.balance_factor_node _ _ _ _ _
          (by simp only [Node.height_node]
              rcases max_linear ll.height lrl.height with ⟨u1, u2⟩ | ⟨u1, u2⟩ <;>
                rcases max_linear lrr.height r.height with ⟨u3, u4⟩ | ⟨u3, u4⟩ <;>
                rcases max_linear lrl.height lrr.height with ⟨u5, u6⟩ | ⟨u5, u6⟩ <;> omega)
          (by simp only [Node.height_node]
              rcases max_linear ll.height lrl.height with ⟨u1, u2⟩ | ⟨u1, u2⟩ <;>
                rcases max_linear lrr.height r.height with ⟨u3, u4⟩ | ⟨u3, u4⟩ <;>
                rcases max_linear lrl.height lrr.height with ⟨u5, u6⟩ | ⟨u5, u6⟩ <;> omega)] <;>
        simp only [Node.height_node] <;>
        rcases max_linear ll.height lrl.height with ⟨u1, u2⟩ | ⟨u1, u2⟩ <;>
          rcases max_linear lrr.height r.height with ⟨u3, u4⟩ | ⟨u3, u4⟩ <;>
          rcases max_linear lrl.height lrr.height with ⟨u5, u6⟩ | ⟨u5, u6⟩ <;> omega
    have h2 : rotationFires ((rebalanceRotate
        ((Node.node (Node.node ll lk lv (Node.node lrl lrk lrv lrr hlrc) hlc) k v r
          h0).update_height)).update_height) = false := by
      rw [e1, hrot]; exact hnf
    have hfs := fixSlot_eq_of_fire
      (Node.node ll lk lv (Node.node lrl lrk lrv lrr hlrc) hlc) k v r h0 hfire h2
    rw [e1, hrot, Node.update_height_node] at hfs
    simp only [Node.height_node] at hfs
    rw [hfs]
    refine ⟨HeightsOk.node (HeightsOk.node hkll hklrl rfl)
        (HeightsOk.node hklrr hkr rfl) rfl,
      BalancedT.node (BalancedT.node bll blrl ?_ ?_) (BalancedT.node blrr br ?_ ?_) ?_ ?_,
      ?_, ?_⟩ <;>
      (try simp only [Node.height_node]) <;>
      rcases max_linear ll.height lrl.height with ⟨u1, u2⟩ | ⟨u1, u2⟩ <;>
        rcases max_linear lrr.height r.height with ⟨u3, u4⟩ | ⟨u3, u4⟩ <;>
        rcases max_linear lrl.height lrr.height with ⟨u5, u6⟩ | ⟨u5, u6⟩ <;>
        rcases max_linear (1 + max ll.height lrl.height) (1 + max lrr.height r.height)
          with ⟨u7, u8⟩ | ⟨u7, u8⟩ <;>
        omega

/-- Full specification of one slot's processing by the rebalancing walk: if
both children satisfy the invariants and their heights differ by at most two
(the only situations a mutation can produce), the processed slot satisfies
the invariants, keeps the in-order sequence, and has height `M` or `M + 1`
where `M` is the taller child's height; when the slot was already within
tolerance nothing is rotated and the height is exactly `1 + M`. -/
theorem fixSlot_spec (k : K) (v : V) (h0 : Nat) {l r : Node K V}
    (hkl : HeightsOk l) (hkr : HeightsOk r) (bl : BalancedT l) (br : BalancedT r)
    (hb1 : l.height ≤ r.height + 2) (hb2 : r.height ≤ l.height + 2) :
    HeightsOk (fixSlot (Node.node l k v r h0)) ∧
    BalancedT (fixSlot (Node.node l k v r h0)) ∧
    (fixSlot (Node.node l k v r h0)).inorder = l.inorder ++ (k, v) :: r.inorder ∧
    max l.height r.height ≤ (fixSlot (Node.node l k v r h0)).height ∧
    (fixSlot (Node.node l k v r h0)).height ≤ 1 + max l.height r.height ∧
    (l.height ≤ r.height + 1 → r.height ≤ l.height + 1 →
      (fixSlot (Node.node l k v r h0)).height = 1 + max l.height r.height) := by
  have hio : (fixSlot (Node.node l k v r h0)).inorder = l.inorder ++ (k, v) :: r.inorder := by
    rw [inorder_fixSlot]; rfl
  rcases (show (l.height ≤ r.height + 1 ∧ r.height ≤ l.height + 1) ∨ r.height = l.height + 2
      ∨ l.height = r.height + 2 by omega) with hbal | hR | hL
  · have hfix : fixSlot (Node.node l k v r h0)
        = Node.node l k v r (1 + max l.height r.height) := by
      rw [fixSlot_eq_of_not]
      · rw [Node.update_height_node]
      · rw [Node.update_height_node]
        apply rotationFires_of_ne <;>
          rw [Node.balance_factor_node _ _ _ _ _ (by omega) (by omega)] <;> omega
    rw [hfix] at hio ⊢
    refine ⟨HeightsOk.node hkl hkr rfl, BalancedT.node bl br hbal.1 hbal.2, hio, ?_, ?_,
      fun _ _ => rfl⟩ <;> simp only [Node.height_node] <;> omega
  · rcases r with _ | ⟨rl, rk, rv, rr, hrc⟩
    · simp only [Node.height_nil] at hR; omega
    cases hkr with
    | node hkrl hkrr hrceq =>
    cases br with
    | node brl brr hbr1 hbr2 =>
    simp only [Node.height_node] at hR hb1 hb2
    have hmain := fixSlot_right_heavy k v rk rv h0 hrc hkl hkrl hkrr bl brl brr hrceq
      hbr1 hbr2 (by omega)
    refine ⟨hmain.1, hmain.2.1, hio, ?_, ?_, ?_⟩ <;>
      simp only [Node.height_node] <;>
      rcases max_linear l.height hrc with ⟨u1, u2⟩ | ⟨u1, u2⟩ <;> omega
  · rcases l with _ | ⟨ll, lk, lv, lr, hlc⟩
    · simp only [Node.height_nil] at hL; omega
    cases hkl with
    | node hkll hklr hlceq =>
    cases bl with
    | node bll blr hbl1 hbl2 =>
    simp only [Node.height_node] at hL hb1 hb2
    have hmain := fixSlot_left_heavy lk lv k v h0 hlc hkll hklr hkr bll blr br hlceq
      hbl1 hbl2 (by omega)
    refine ⟨hmain.1, hmain.2.1, hio, ?_, ?_, ?_⟩ <;>
      simp only [Node.height_node] <;>
      rcases max_linear hlc r.height with ⟨u1, u2⟩ | ⟨u1, u2⟩ <;> omega

/-! Reference-map lemmas: how insertion, removal and lookup act on an
association list split around one entry, and preservation of sortedness. -/

theorem RefMap.insert_append_lt [LinearOrder K] {k key : K} (v val : V) (hlt : k < key)
    (xs ys : List (K × V)) :
    RefMap.insert k v (xs ++ (key, val) :: ys)
      = ((RefMap.insert k v xs).1 ++ (key, val) :: ys, (RefMap.insert k v xs).2) := by
  induction xs with
  | nil => simp [RefMap.insert, hlt]
  | cons e xs ih =>
    obtain ⟨k2, v2⟩ := e
    by_cases h1 : k < k2
    · simp [RefMap.insert, h1]
    · by_cases h2 : k2 < k
      · simp [RefMap.insert, h1, h2, ih]
      · simp [RefMap.insert, h1, h2]

theorem RefMap.insert_append_gt [LinearOrder K] {k key : K} (v val : V) (hgt : key < k)
    (xs ys : List (K × V)) (hxs : ∀ e ∈ xs, e.1 < k) :
    RefMap.insert k v (xs ++ (key, val) :: ys)
      = (xs ++ (key, val) :: (RefMap.insert k v ys).1, (RefMap.insert k v ys).2) := by
  induction xs with
  | nil => simp [RefMap.insert, lt_asymm hgt, hgt]
  | cons e xs ih =>
    obtain ⟨k2, v2⟩ := e
    have h2 : k2 < k := hxs _ (List.mem_cons_self _ _)
    simp [RefMap.insert, lt_asymm h2, h2, ih fun e he => hxs e (List.mem_cons_of_mem _ he)]

theorem RefMap.insert_append_eq [LinearOrder K] {k : K} (v val : V)
    (xs ys : List (K × V)) (hxs : ∀ e ∈ xs, e.1 < k) :
    RefMap.insert k v (xs ++ (k, val) :: ys) = (xs ++ (k, v) :: ys, some val) := by
  induction xs with
  | nil => simp [RefMap.insert, lt_irrefl]
  | cons e xs ih =>
    obtain ⟨k2, v2⟩ := e
    have h2 : k2 < k := hxs _ (List.mem_cons_self _ _)
    simp [RefMap.insert, lt_asymm h2, h2, ih fun e he => hxs e (List.mem_cons_of_mem _ he)]

theorem RefMap.mem_insert [LinearOrder K] {e : K × V} {k : K} {v : V} {m : List (K × V)}
    (he : e ∈ (RefMap.insert k v m).1) : e.1 = k ∨ e ∈ m := by
  induction m with
  | nil =>
    simp [RefMap.insert] at he
    simp [he]
  | cons e2 m ih =>
    obtain ⟨k2, v2⟩ := e2
    by_cases h1 : k < k2
    · simp [RefMap.insert, h1] at he
      rcases he with he | he | he
      · simp [he]
      · simp [he]
      · simp [he]
    · by_cases h2 : k2 < k
      · simp [RefMap.insert, h1, h2] at he
        rcases he with he | he
        · simp [he]
        · rcases ih he with h | h
          · exact Or.inl h
          · simp [h]
      · simp [RefMap.insert, h1, h2] at he
        rcases he with he | he
        · simp [he]
        · simp [he]

theorem RefMap.insert_sorted [LinearOrder K] (k : K) (v : V) {m : List (K × V)}
    (s : SortedKeys m) : SortedKeys (RefMap.insert k v m).1 := by
  induction m with
  | nil => simp [RefMap.insert, SortedKeys]
  | cons e m ih =>
    obtain ⟨k2, v2⟩ := e
    rw [SortedKeys, List.pairwise_cons] at s
    by_cases h1 : k < k2
    · rw [show (RefMap.insert k v ((k2, v2) :: m)).1 = (k, v) :: (k2, v2) :: m by
        simp [RefMap.insert, h1]]
      rw [SortedKeys, List.pairwise_cons]
      refine ⟨fun e he => ?_, List.Pairwise.cons s.1 s.2⟩
      rcases List.mem_cons.1 he with he | he
      · rw [he]; exact h1
      · exact lt_trans h1 (s.1 e he)
    · by_cases h2 : k2 < k
      · rw [show (RefMap.insert k v ((k2, v2) :: m)).1 = (k2, v2) :: (RefMap.insert k v m).1
          by simp [RefMap.insert, h1, h2]]
        rw [SortedKeys, List.pairwise_cons]
        refine ⟨fun e he => ?_, ih s.2⟩
        rcases RefMap.mem_insert he with he | he
        · rw [he]; exact h2
        · exact s.1 e he
      · have hkk : k = k2 := le_antisymm (not_lt.1 h2) (not_lt.1 h1)
        rw [show (RefMap.insert k v ((k2, v2) :: m)).1 = (k, v) :: m by
          simp [RefMap.insert, h1, h2]]
        rw [SortedKeys, List.pairwise_cons]
        exact ⟨fun e he => hkk ▸ s.1 e he, s.2⟩

theorem RefMap.erase_append_lt [LinearOrder K] {k key : K} (val : V) (hlt : k < key)
    (xs ys : List (K × V)) :
    RefMap.erase k (xs ++ (key, val) :: ys)
      = ((RefMap.erase k xs).1 ++ (key, val) :: ys, (RefMap.erase k xs).2) := by
  induction xs with
  | nil => simp [RefMap.erase, hlt]
  | cons e xs ih =>
    obtain ⟨k2, v2⟩ := e
    by_cases h1 : k < k2
    · simp [RefMap.erase, h1]
    · by_cases h2 : k2 < k
      · simp [RefMap.erase, h1, h2, ih]
      · simp [RefMap.erase, h1, h2]

theorem RefMap.erase_append_gt [LinearOrder K] {k key : K} (val : V) (hgt : key < k)
    (xs ys : List (K × V)) (hxs : ∀ e ∈ xs, e.1 < k) :
    RefMap.erase k (xs ++ (key, val) :: ys)
      = (xs ++ (key, val) :: (RefMap.erase k ys).1, (RefMap.erase k ys).2) := by
  induction xs with
  | nil => simp [RefMap.erase, lt_asymm hgt, hgt]
  | cons e xs ih =>
    obtain ⟨k2, v2⟩ := e
    have h2 : k2 < k := hxs _ (List.mem_cons_self _ _)
    simp [RefMap.erase, lt_asymm h2, h2, ih fun e he => hxs e (List.mem_cons_of_mem _ he)]

theorem RefMap.erase_append_eq [LinearOrder K] {k : K} (val : V)
    (xs ys : List (K × V)) (hxs : ∀ e ∈ xs, e.1 < k) :
    RefMap.erase k (xs ++ (k, val) :: ys) = (xs ++ ys, some val) := by
  induction xs with
  | nil => simp [RefMap.erase, lt_irrefl]
  | cons e xs ih =>
    obtain ⟨k2, v2⟩ := e
    have h2 : k2 < k := hxs _ (List.mem_cons_self _ _)
    simp [RefMap.erase, lt_asymm h2, h2, ih fun e he => hxs e (List.mem_cons_of_mem _ he)]

theorem RefMap.erase_sublist [LinearOrder K] (k : K) (m : List (K × V)) :
    (RefMap.erase k m).1.Sublist m := by
  induction m with
  | nil => simp [RefMap.erase]
  | cons e m ih =>
    obtain ⟨k2, v2⟩ := e
    by_cases h1 : k < k2
    · simp [RefMap.erase, h1]
    · by_cases h2 : k2 < k
      · simpa [RefMap.erase, h1, h2] using List.Sublist.cons₂ (k2, v2) ih
      · simp [RefMap.erase, h1, h2]

theorem RefMap.erase_sorted [LinearOrder K] (k : K) {m : List (K × V)}
    (s : SortedKeys m) : SortedKeys (RefMap.erase k m).1 :=
  List.Pairwise.sublist (RefMap.erase_sublist k m) s

/-- Decomposition of the sortedness of a node's in-order sequence. -/
theorem sortedKeys_node [LinearOrder K] {l r : Node K V} {k : K} {v : V} {h : Nat}
    (s : SortedKeys (Node.node l k v r h).inorder) :
    SortedKeys l.inorder ∧ SortedKeys r.inorder ∧
      (∀ e ∈ l.inorder, e.1 < k) ∧ (∀ e ∈ r.inorder, k < e.1) := by
  rw [Node.inorder_node, SortedKeys, List.pairwise_append] at s
  obtain ⟨s1, s2, s3⟩ := s
  rw [List.pairwise_cons] at s2
  exact ⟨s1, s2.2, fun e he => s3 e he (k, v) (List.mem_cons_self _ _),
    fun e he => s2.1 e he⟩

/-- Recomposition of sortedness at a node. -/
theorem sortedKeys_node_of [LinearOrder K] {l r : Node K V} {k : K} {v : V} {h : Nat}
    (s1 : SortedKeys l.inorder) (s2 : SortedKeys r.inorder)
    (h1 : ∀ e ∈ l.inorder, e.1 < k) (h2 : ∀ e ∈ r.inorder, k < e.1) :
    SortedKeys (Node.node l k v r h).inorder := by
  rw [Node.inorder_node, SortedKeys, List.pairwise_append]
  refine ⟨s1, ?_, ?_⟩
  · rw [List.pairwise_cons]
    exact ⟨h2, s2⟩
  · intro a ha b hb
    rcases List.mem_cons.1 hb with hb | hb
    · rw [hb]; exact h1 a ha
    · exact lt_trans (h1 a ha) (h2 b hb)

/-- Specification of the insert routine on a subtree satisfying the
invariants: the result satisfies the height and balance invariants, its
in-order sequence and the returned old value agree with the reference map,
and the height grows by at most one (not at all when an existing key was
overwritten). -/
theorem insertGo_spec [LinearOrder K] (k : K) (v : V) {t : Node K V}
    (hk : HeightsOk t) (b : BalancedT t) (s : SortedKeys t.inorder) :
    HeightsOk (insertGo t k v).1 ∧ BalancedT (insertGo t k v).1 ∧
    (insertGo t k v).1.inorder = (RefMap.insert k v t.inorder).1 ∧
    (insertGo t k v).2 = (RefMap.insert k v t.inorder).2 ∧
    t.height ≤ (insertGo t k v).1.height ∧ (insertGo t k v).1.height ≤ t.height + 1 ∧
    ((insertGo t k v).2.isSome → (insertGo t k v).1.height = t.height) := by
  induction t with
  | nil =>
    refine ⟨HeightsOk.node HeightsOk.nil HeightsOk.nil (by simp),
      BalancedT.node BalancedT.nil BalancedT.nil (by simp) (by simp), ?_, ?_, ?_, ?_, ?_⟩ <;>
      simp [insertGo, RefMap.insert]
  | node l key val r h ihl ihr =>
    cases hk with
    | node hkl hkr heq =>
    cases b with
    | node bl br hb1 hb2 =>
    obtain ⟨sl, sr, hlk, hrk⟩ := sortedKeys_node s
    rcases lt_trichotomy k key with hlt | hceq | hgt
    · have IH := ihl hkl bl sl
      rcases hp : insertGo l k v with ⟨l2, ret⟩
      rw [hp] at IH
      dsimp only at IH
      obtain ⟨IH1, IH2, IH3, IH4, IH5, IH6, IH7⟩ := IH
      have hRM : RefMap.insert k v ((Node.node l key val r h).inorder)
          = ((RefMap.insert k v l.inorder).1 ++ (key, val) :: r.inorder,
             (RefMap.insert k v l.inorder).2) := by
        rw [Node.inorder_node]
        exact RefMap.insert_append_lt v val hlt _ _
      cases ret with
      | none =>
        have hins : insertGo (Node.node l key val r h) k v
            = (fixSlot (Node.node l2 key val r h), none) := by
          rw [insertGo, if_pos hlt, hp]
        rw [hins, hRM]
        dsimp only
        have FS := fixSlot_spec key val h IH1 hkr IH2 br (by omega) (by omega)
        obtain ⟨F1, F2, F3, F4, F5, F6⟩ := FS
        have hEx : (fixSlot (Node.node l2 key val r h)).height
            = 1 + max l2.height r.height ∨ l2.height = r.height + 2 := by
          by_cases hc : l2.height ≤ r.height + 1
          · exact Or.inl (F6 hc (by omega))
          · exact Or.inr (by omega)
        refine ⟨F1, F2, ?_, IH4, ?_, ?_, by simp⟩
        · rw [F3, IH3]
        · simp only [Node.height_node]
          rcases hEx with hEx | hEx <;>
            rcases max_linear l.height r.height with ⟨u1, u2⟩ | ⟨u1, u2⟩ <;>
            rcases max_linear l2.height r.height with ⟨u3, u4⟩ | ⟨u3, u4⟩ <;> omega
        · simp only [Node.height_node]
          rcases hEx with hEx | hEx <;>
            rcases max_linear l.height r.height with ⟨u1, u2⟩ | ⟨u1, u2⟩ <;>
            rcases max_linear l2.height r.height with ⟨u3, u4⟩ | ⟨u3, u4⟩ <;> omega
      | some ov =>
        have hins : insertGo (Node.node l key val r h) k v
            = (Node.node l2 key val r h, some ov) := by
          rw [insertGo, if_pos hlt, hp]
        rw [hins, hRM]
        dsimp only
        have hl2 : l2.height = l.height := IH7 (by simp)
        refine ⟨HeightsOk.node IH1 hkr (by omega), BalancedT.node IH2 br (by omega) (by omega),
          ?_, IH4, by simp, by simp, fun _ => by simp [hl2]⟩
        rw [Node.inorder_node, IH3]
    · subst hceq
      have hins : insertGo (Node.node l k val r h) k v = (Node.node l k v r h, some val) := by
        rw [insertGo, if_neg (lt_irrefl k), if_neg (lt_irrefl k)]
      have hRM : RefMap.insert k v ((Node.node l k val r h).inorder)
          = (l.inorder ++ (k, v) :: r.inorder, some val) := by
        rw [Node.inorder_node]
        exact RefMap.insert_append_eq v val _ _ hlk
      rw [hins, hRM]
      dsimp only
      exact ⟨HeightsOk.node hkl hkr heq, BalancedT.node bl br hb1 hb2, by simp,
        rfl, by simp, by simp, fun _ => rfl⟩
    · have IH := ihr hkr br sr
      rcases hp : insertGo r k v with ⟨r2, ret⟩
      rw [hp] at IH
      dsimp only at IH
      obtain ⟨IH1, IH2, IH3, IH4, IH5, IH6, IH7⟩ := IH
      have hRM : RefMap.insert k v ((Node.node l key val r h).inorder)
          = (l.inorder ++ (key, val) :: (RefMap.insert k v r.inorder).1,
             (RefMap.insert k v r.inorder).2) := by
        rw [Node.inorder_node]
        exact RefMap.insert_append_gt v val hgt _ _
          fun e he => lt_trans (hlk e he) hgt
      cases ret with
      | none =>
        have hins : insertGo (Node.node l key val r h) k v
            = (fixSlot (Node.node l key val r2 h), none) := by
          rw [insertGo, if_neg (lt_asymm hgt), if_pos hgt, hp]
        rw [hins, hRM]
        dsimp only
        have FS := fixSlot_spec key val h hkl IH1 bl IH2 (by omega) (by omega)
        obtain ⟨F1, F2, F3, F4, F5, F6⟩ := FS
        have hEx : (fixSlot (Node.node l key val r2 h)).height
            = 1 + max l.height r2.height ∨ r2.height = l.height + 2 := by
          by_cases hc : r2.height ≤ l.height + 1
          · exact Or.inl (F6 (by omega) hc)
          · exact Or.inr (by omega)
        refine ⟨F1, F2, ?_, IH4, ?_, ?_, by simp⟩
        · rw [F3, IH3]
        · simp only [Node.height_node]
          rcases hEx with hEx | hEx <;>
            rcases max_linear l.height r.height with ⟨u1, u2⟩ | ⟨u1, u2⟩ <;>
            rcases max_linear l.height r2.height with ⟨u3, u4⟩ | ⟨u3, u4⟩ <;> omega
        · simp only [Node.height_node]
          rcases hEx with hEx | hEx <;>
            rcases max_linear l.height r.height with ⟨u1, u2⟩ | ⟨u1, u2⟩ <;>
            rcases max_linear l.height r2.height with ⟨u3, u4⟩ | ⟨u3, u4⟩ <;> omega
      | some ov =>
        have hins : insertGo (Node.node l key val r h) k v
            = (Node.node l key val r2 h, some ov) := by
          rw [insertGo, if_neg (lt_asymm hgt), if_pos hgt, hp]
        rw [hins, hRM]
        dsimp only
        have hr2 : r2.height = r.height := IH7 (by simp)
        refine ⟨HeightsOk.node hkl IH1 (by omega), BalancedT.node bl IH2 (by omega) (by omega),
          ?_, IH4, by simp, by simp, fun _ => by simp [hr2]⟩
        rw [Node.inorder_node, IH3]

theorem RefMap.erase_of_ret_none [LinearOrder K] {k : K} {m : List (K × V)}
    (h : (RefMap.erase k m).2 = none) : (RefMap.erase k m).1 = m := by
  induction m with
  | nil => rfl
  | cons e m ih =>
    obtain ⟨k2, v2⟩ := e
    by_cases h1 : k < k2
    · simp [RefMap.erase, h1]
    · by_cases h2 : k2 < k
      · simp only [RefMap.erase, if_neg h1, if_pos h2] at h ⊢
        rw [ih h]
      · simp [RefMap.erase, h1, h2] at h

/-- Specification of the successor-splice loop on a nonempty subtree
satisfying the invariants: it returns the first in-order entry together with
a subtree holding the remaining entries, preserving the invariants and
shrinking the height by at most one. -/
theorem extractLeftmost_spec {t : Node K V} (hne : t ≠ Node.nil)
    (hk : HeightsOk t) (b : BalancedT t) :
    ∃ ks vs hs t2, extractLeftmost t = some ((ks, vs, hs), t2) ∧
      t.inorder = (ks, vs) :: t2.inorder ∧
      HeightsOk t2 ∧ BalancedT t2 ∧
      t2.height ≤ t.height ∧ t.height ≤ t2.height + 1 := by
  induction t with
  | nil => exact absurd rfl hne
  | node l k v r h ihl ihr =>
    cases hk with
    | node hkl hkr heq =>
    cases b with
    | node bl br hb1 hb2 =>
    rcases l with _ | ⟨ll, lk, lv, lr, hlc⟩
    · refine ⟨k, v, h, r, rfl, by simp, hkr, br, ?_, ?_⟩ <;>
        simp only [Node.height_node, Node.height_nil] at * <;> omega
    · obtain ⟨ks, vs, hs, l2, hE, hio, hkl2, bl2, hh1, hh2⟩ :=
        ihl (by simp) hkl bl
      have hE2 : extractLeftmost (Node.node (Node.node ll lk lv lr hlc) k v r h)
          = some ((ks, vs, hs), fixSlot (Node.node l2 k v r h)) := by
        rw [extractLeftmost, hE]
        rfl
      have FS := fixSlot_spec k v h hkl2 hkr bl2 br
        (by simp only [Node.height_node] at *; omega)
        (by simp only [Node.height_node] at *; omega)
      obtain ⟨F1, F2, F3, F4, F5, F6⟩ := FS
      have hEx : (fixSlot (Node.node l2 k v r h)).height
          = 1 + max l2.height r.height ∨ r.height = l2.height + 2 := by
        by_cases hc : r.height ≤ l2.height + 1
        · exact Or.inl (F6 (by simp only [Node.height_node] at *; omega) hc)
        · exact Or.inr (by simp only [Node.height_node] at *; omega)
      refine ⟨ks, vs, hs, fixSlot (Node.node l2 k v r h), hE2, ?_, F1, F2, ?_, ?_⟩
      · rw [Node.inorder_node, F3, hio]
        simp
      · simp only [Node.height_node] at *
        rcases hEx with hEx | hEx <;>
          rcases max_linear (Node.node ll lk lv lr hlc).height r.height
            with ⟨u1, u2⟩ | ⟨u1, u2⟩ <;>
          rcases max_linear l2.height r.height with ⟨u3, u4⟩ | ⟨u3, u4⟩ <;> omega
      · simp only [Node.height_node] at *
        rcases hEx with hEx | hEx <;>
          rcases max_linear (Node.node ll lk lv lr hlc).height r.height
            with ⟨u1, u2⟩ | ⟨u1, u2⟩ <;>
          rcases max_linear l2.height r.height with ⟨u3, u4⟩ | ⟨u3, u4⟩ <;> omega

/-- Specification of the remove routine on a subtree satisfying the
invariants: the result satisfies the height and balance invariants, its
in-order sequence and the returned old value agree with the reference map,
the height shrinks by at most one, and an absent key leaves the subtree
untouched. -/
theorem removeGo_spec [LinearOrder K] (key : K) {t : Node K V}
    (hk : HeightsOk t) (b : BalancedT t) (s : SortedKeys t.inorder) :
    HeightsOk (removeGo key t).2 ∧ BalancedT (removeGo key t).2 ∧
    (removeGo key t).2.inorder = (RefMap.erase key t.inorder).1 ∧
    (removeGo key t).1 = (RefMap.erase key t.inorder).2 ∧
    (removeGo key t).2.height ≤ t.height ∧ t.height ≤ (removeGo key t).2.height + 1 ∧
    ((removeGo key t).1 = none → (removeGo key t).2 = t) := by
  induction t with
  | nil => exact ⟨HeightsOk.nil, BalancedT.nil, rfl, rfl, le_refl _, by simp, fun _ => rfl⟩
  | node l k v r h ihl ihr =>
    cases hk with
    | node hkl hkr heq =>
    cases b with
    | node bl br hb1 hb2 =>
    obtain ⟨sl, sr, hlk, hrk⟩ := sortedKeys_node s
    rcases lt_trichotomy key k with hlt | hceq | hgt
    · rcases hp : removeGo key l with ⟨ret, l2⟩
      have IH := ihl hkl bl sl
      rw [hp] at IH
      dsimp only at IH
      obtain ⟨IH1, IH2, IH3, IH4, IH5, IH6, IH7⟩ := IH
      have hRM : RefMap.erase key ((Node.node l k v r h).inorder)
          = ((RefMap.erase key l.inorder).1 ++ (k, v) :: r.inorder,
             (RefMap.erase key l.inorder).2) := by
        rw [Node.inorder_node]
        exact RefMap.erase_append_lt v hlt _ _
      cases ret with
      | none =>
        have hins : removeGo key (Node.node l k v r h) = (none, Node.node l k v r h) := by
          rw [removeGo, if_pos hlt, hp]
        rw [hins, hRM]
        dsimp only
        have hnone : (RefMap.erase key l.inorder).1 = l.inorder :=
          RefMap.erase_of_ret_none IH4.symm
        refine ⟨HeightsOk.node hkl hkr heq, BalancedT.node bl br hb1 hb2, ?_, IH4,
          le_refl _, by simp, fun _ => rfl⟩
        rw [hnone, Node.inorder_node]
      | some ov =>
        have hins : removeGo key (Node.node l k v r h)
            = (some ov, fixSlot (Node.node l2 k v r h)) := by
          rw [removeGo, if_pos hlt, hp]
        rw [hins, hRM]
        dsimp only
        have FS := fixSlot_spec k v h IH1 hkr IH2 br (by omega) (by omega)
        obtain ⟨F1, F2, F3, F4, F5, F6⟩ := FS
        have hEx : (fixSlot (Node.node l2 k v r h)).height
            = 1 + max l2.height r.height ∨ r.height = l2.height + 2 := by
          by_cases hc : r.height ≤ l2.height + 1
          · exact Or.inl (F6 (by omega) hc)
          · exact Or.inr (by omega)
        refine ⟨F1, F2, ?_, IH4, ?_, ?_, by simp⟩
        · rw [F3, IH3]
        · simp only [Node.height_node]
          rcases hEx with hEx | hEx <;>
            rcases max_linear l.height r.height with ⟨u1, u2⟩ | ⟨u1, u2⟩ <;>
            rcases max_linear l2.height r.height with ⟨u3, u4⟩ | ⟨u3, u4⟩ <;> omega
        · simp only [Node.height_node]
          rcases hEx with hEx | hEx <;>
            rcases max_linear l.height r.height with ⟨u1, u2⟩ | ⟨u1, u2⟩ <;>
            rcases max_linear l2.height r.height with ⟨u3, u4⟩ | ⟨u3, u4⟩ <;> omega
    · subst hceq
      rcases l with _ | ⟨a1, b1, c1, d1, e1⟩
      · rcases r with _ | ⟨a2, b2, c2, d2, e2⟩
        · have hins : removeGo key (Node.node Node.nil key v Node.nil h)
              = (some v, Node.nil) := by
            rw [removeGo, if_neg (lt_irrefl key), if_neg (lt_irrefl key), removeDispatch]
          have hRM := @RefMap.erase_append_eq K V _ key v [] [] (by simp)
          rw [hins, show (Node.node Node.nil key v Node.nil h).inorder
            = [] ++ (key, v) :: [] from rfl, hRM]
          dsimp only
          refine ⟨HeightsOk.nil, BalancedT.nil, by simp, rfl, ?_, ?_, by simp⟩ <;>
            simp only [Node.height_node, Node.height_nil] at * <;> omega
        · have hins : removeGo key (Node.node Node.nil key v (Node.node a2 b2 c2 d2 e2) h)
              = (some v, Node.node a2 b2 c2 d2 e2) := by
            rw [removeGo, if_neg (lt_irrefl key), if_neg (lt_irrefl key), removeDispatch]
          have hRM := @RefMap.erase_append_eq K V _ key v []
            ((Node.node a2 b2 c2 d2 e2).inorder) (by simp)
          rw [hins, show (Node.node Node.nil key v (Node.node a2 b2 c2 d2 e2) h).inorder
            = [] ++ (key, v) :: (Node.node a2 b2 c2 d2 e2).inorder from rfl, hRM]
          dsimp only
          refine ⟨hkr, br, by simp, rfl, ?_, ?_, by simp⟩ <;>
            simp only [Node.height_node, Node.height_nil] at * <;> omega
      · rcases r with _ | ⟨a2, b2, c2, d2, e2⟩
        · have hins : removeGo key (Node.node (Node.node a1 b1 c1 d1 e1) key v Node.nil h)
              = (some v, Node.node a1 b1 c1 d1 e1) := by
            rw [removeGo, if_neg (lt_irrefl key), if_neg (lt_irrefl key), removeDispatch]
          have hRM := @RefMap.erase_append_eq K V _ key v
            ((Node.node a1 b1 c1 d1 e1).inorder) [] hlk
          rw [hins, show (Node.node (Node.node a1 b1 c1 d1 e1) key v Node.nil h).inorder
            = (Node.node a1 b1 c1 d1 e1).inorder ++ (key, v) :: [] from rfl, hRM]
          dsimp only
          refine ⟨hkl, bl, by simp, rfl, ?_, ?_, by simp⟩ <;>
            simp only [Node.height_node, Node.height_nil] at * <;> omega
        · obtain ⟨ks, vs, hs, r2, hE, hio, hkr2, br2, hh1, hh2⟩ :=
            extractLeftmost_spec (by simp) hkr br
          have hins : removeGo key (Node.node (Node.node a1 b1 c1 d1 e1) key v
              (Node.node a2 b2 c2 d2 e2) h)
              = (some v, fixSlot (Node.node (Node.node a1 b1 c1 d1 e1) ks vs r2 hs)) := by
            rw [removeGo, if_neg (lt_irrefl key), if_neg (lt_irrefl key),
              removeDispatch, hE]
          have hRM := @RefMap.erase_append_eq K V _ key v
            ((Node.node a1 b1 c1 d1 e1).inorder) ((Node.node a2 b2 c2 d2 e2).inorder) hlk
          rw [hins, show (Node.node (Node.node a1 b1 c1 d1 e1) key v
              (Node.node a2 b2 c2 d2 e2) h).inorder
            = (Node.node a1 b1 c1 d1 e1).inorder ++ (key, v) ::
              (Node.node a2 b2 c2 d2 e2).inorder from rfl, hRM]
          dsimp only
          have FS := fixSlot_spec ks vs hs hkl hkr2 bl br2
            (by simp only [Node.height_node] at *; omega)
            (by simp only [Node.height_node] at *; omega)
          obtain ⟨F1, F2, F3, F4, F5, F6⟩ := FS
          have hEx : (fixSlot (Node.node (Node.node a1 b1 c1 d1 e1) ks vs r2 hs)).height
              = 1 + max (Node.node a1 b1 c1 d1 e1).height r2.height ∨
              (Node.node a1 b1 c1 d1 e1).height = r2.height + 2 := by
            by_cases hc : (Node.node a1 b1 c1 d1 e1).height ≤ r2.height + 1
            · exact Or.inl (F6 hc (by simp only [Node.height_node] at *; omega))
            · exact Or.inr (by simp only [Node.height_node] at *; omega)
          refine ⟨F1, F2, ?_, rfl, ?_, ?_, by simp⟩
          · rw [F3, hio]
          · simp only [Node.height_node] at *
            rcases hEx with hEx | hEx <;>
              rcases max_linear (Node.node a1 b1 c1 d1 e1).height
                (Node.node a2 b2 c2 d2 e2).height with ⟨u1, u2⟩ | ⟨u1, u2⟩ <;>
              rcases max_linear (Node.node a1 b1 c1 d1 e1).height r2.height
                with ⟨u3, u4⟩ | ⟨u3, u4⟩ <;> omega
          · simp only [Node.height_node] at *
            rcases hEx with hEx | hEx <;>
              rcases max_linear (Node.node a1 b1 c1 d1 e1).height
                (Node.node a2 b2 c2 d2 e2).height with ⟨u1, u2⟩ | ⟨u1, u2⟩ <;>
              rcases max_linear (Node.node a1 b1 c1 d1 e1).height r2.height
                with ⟨u3, u4⟩ | ⟨u3, u4⟩ <;> omega
    · rcases hp : removeGo key r with ⟨ret, r2⟩
      have IH := ihr hkr br sr
      rw [hp] at IH
      dsimp only at IH
      obtain ⟨IH1, IH2, IH3, IH4, IH5, IH6, IH7⟩ := IH
      have hRM : RefMap.erase key ((Node.node l k v r h).inorder)
          = (l.inorder ++ (k, v) :: (RefMap.erase key r.inorder).1,
             (RefMap.erase key r.inorder).2) := by
        rw [Node.inorder_node]
        exact RefMap.erase_append_gt v hgt _ _ fun e he => lt_trans (hlk e he) hgt
      cases ret with
      | none =>
        have hins : removeGo key (Node.node l k v r h) = (none, Node.node l k v r h) := by
          rw [removeGo, if_neg (lt_asymm hgt), if_pos hgt, hp]
        rw [hins, hRM]
        dsimp only
        have hnone : (RefMap.erase key r.inorder).1 = r.inorder :=
          RefMap.erase_of_ret_none IH4.symm
        refine ⟨HeightsOk.node hkl hkr heq, BalancedT.node bl br hb1 hb2, ?_, IH4,
          le_refl _, by simp, fun _ => rfl⟩
        rw [hnone, Node.inorder_node]
      | some ov =>
        have hins : removeGo key (Node.node l k v r h)
            = (some ov, fixSlot (Node.node l k v r2 h)) := by
          rw [removeGo, if_neg (lt_asymm hgt), if_pos hgt, hp]
        rw [hins, hRM]
        dsimp only
        have FS := fixSlot_spec k v h hkl IH1 bl IH2 (by omega) (by omega)
        obtain ⟨F1, F2, F3, F4, F5, F6⟩ := FS
        have hEx : (fixSlot (Node.node l k v r2 h)).height
            = 1 + max l.height r2.height ∨ l.height = r2.height + 2 := by
          by_cases hc : l.height ≤ r2.height + 1
          · exact Or.inl (F6 hc (by omega))
          · exact Or.inr (by omega)
        refine ⟨F1, F2, ?_, IH4, ?_, ?_, by simp⟩
        · rw [F3, IH3]
        · simp only [Node.height_node]
          rcases hEx with hEx | hEx <;>
            rcases max_linear l.height r.height with ⟨u1, u2⟩ | ⟨u1, u2⟩ <;>
            rcases max_linear l.height r2.height with ⟨u3, u4⟩ | ⟨u3, u4⟩ <;> omega
        · simp only [Node.height_node]
          rcases hEx with hEx | hEx <;>
            rcases max_linear l.height r.height with ⟨u1, u2⟩ | ⟨u1, u2⟩ <;>
            rcases max_linear l.height r2.height with ⟨u3, u4⟩ | ⟨u3, u4⟩ <;> omega

theorem forallKeys_iff {p : K → Prop} {t : Node K V} :
    ForallKeys p t ↔ ∀ e ∈ t.inorder, p e.1 := by
  induction t with
  | nil =>
    constructor
    · intro _ e he
      simp at he
    · intro _
      exact ForallKeys.nil
  | node l k v r h ihl ihr =>
    constructor
    · intro hf e he
      cases hf with
      | node hfl hpk hfr =>
      rw [Node.inorder_node] at he
      rcases List.mem_append.1 he with he | he
      · exact ihl.1 hfl e he
      · rcases List.mem_cons.1 he with he | he
        · rw [he]; exact hpk
        · exact ihr.1 hfr e he
    · intro hall
      refine ForallKeys.node
        (ihl.2 fun e he => hall e (by
          rw [Node.inorder_node]; exact List.mem_append.2 (Or.inl he)))
        (hall (k, v) (by
          rw [Node.inorder_node]
          exact List.mem_append.2 (Or.inr (List.mem_cons_self _ _))))
        (ihr.2 fun e he => hall e (by
          rw [Node.inorder_node]
          exact List.mem_append.2 (Or.inr (List.mem_cons_of_mem _ he))))

/-- The inductive binary-search-tree ordering is equivalent to strict
sortedness of the in-order key sequence. -/
theorem bst_iff_sorted [LinearOrder K] {t : Node K V} : BST t ↔ SortedKeys t.inorder := by
  induction t with
  | nil =>
    constructor
    · intro _
      exact List.Pairwise.nil
    · intro _
      exact BST.nil
  | node l k v r h ihl ihr =>
    constructor
    · intro hb
      cases hb with
      | node h1 h2 b1 b2 =>
      exact sortedKeys_node_of (ihl.1 b1) (ihr.1 b2) (forallKeys_iff.1 h1)
        (forallKeys_iff.1 h2)
    · intro hs
      obtain ⟨s1, s2, h1, h2⟩ := sortedKeys_node hs
      exact BST.node (forallKeys_iff.2 h1) (forallKeys_iff.2 h2) (ihl.2 s1) (ihr.2 s2)

/-- On a tree with correct cached heights, balance at every node gives the
bound on the code's `balance_factor` at every node. -/
theorem allNodes_balance {t : Node K V} (hk : HeightsOk t) (b : BalancedT t) :
    AllNodes (fun n => n.left_height ≤ n.right_height + 1 ∧
      n.right_height ≤ n.left_height + 1 ∧ n.balance_factor.natAbs ≤ 1) t := by
  induction t with
  | nil => exact AllNodes.nil
  | node l k v r h ihl ihr =>
    cases hk with
    | node hkl hkr heq =>
    cases b with
    | node bl br h1 h2 =>
    refine AllNodes.node (ihl hkl bl) (ihr hkr br)
      ⟨by simpa using h1, by simpa using h2, ?_⟩
    rw [Node.balance_factor_node _ _ _ _ _ (by omega) (by omega)]
    omega

theorem RefMap.get_of_absent [LinearOrder K] {key : K} {m : List (K × V)}
    (h : ∀ e ∈ m, key ≠ e.1) : RefMap.get key m = none := by
  induction m with
  | nil => rfl
  | cons e m ih =>
    obtain ⟨k2, v2⟩ := e
    rw [RefMap.get, if_neg (h (k2, v2) (List.mem_cons_self _ _))]
    exact ih fun e he => h e (List.mem_cons_of_mem _ he)

theorem RefMap.get_append_left [LinearOrder K] {key : K} {xs ys : List (K × V)}
    (h : ∀ e ∈ ys, key ≠ e.1) : RefMap.get key (xs ++ ys) = RefMap.get key xs := by
  induction xs with
  | nil => exact RefMap.get_of_absent h
  | cons e xs ih =>
    obtain ⟨k2, v2⟩ := e
    by_cases h1 : key = k2
    · simp [RefMap.get, h1]
    · simp [RefMap.get, h1, ih]

theorem RefMap.get_append_right [LinearOrder K] {key : K} {xs ys : List (K × V)}
    (h : ∀ e ∈ xs, key ≠ e.1) : RefMap.get key (xs ++ ys) = RefMap.get key ys := by
  induction xs with
  | nil => rfl
  | cons e xs ih =>
    obtain ⟨k2, v2⟩ := e
    rw [List.cons_append, RefMap.get, if_neg (h (k2, v2) (List.mem_cons_self _ _))]
    exact ih fun e he => h e (List.mem_cons_of_mem _ he)

/-- On a sorted in-order sequence, the BST descent of `get` computes exactly
the reference map's lookup. -/
theorem getGo_eq_refMap [LinearOrder K] (key : K) {t : Node K V}
    (s : SortedKeys t.inorder) : getGo key t = RefMap.get key t.inorder := by
  induction t with
  | nil => rfl
  | node l k v r h ihl ihr =>
    obtain ⟨sl, sr, hlk, hrk⟩ := sortedKeys_node s
    rw [Node.inorder_node]
    rcases lt_trichotomy key k with hlt | hceq | hgt
    · rw [getGo, if_pos hlt, ihl sl]
      refine (RefMap.get_append_left ?_).symm
      intro e he
      rcases List.mem_cons.1 he with he | he
      · rw [he]; exact ne_of_lt hlt
      · exact ne_of_lt (lt_trans hlt (hrk e he))
    · subst hceq
      rw [getGo, if_neg (lt_irrefl key), if_neg (lt_irrefl key),
        RefMap.get_append_right fun e he => ne_of_gt (hlk e he), RefMap.get, if_pos rfl]
    · rw [getGo, if_neg (lt_asymm hgt), if_pos hgt, ihr sr,
        RefMap.get_append_right fun e he => ne_of_gt (lt_trans (hlk e he) hgt),
        RefMap.get, if_neg (ne_of_gt hgt)]

theorem inorder_ne_nil (l r : Node K V) (k : K) (v : V) (h : Nat) :
    (Node.node l k v r h).inorder ≠ [] := by
  rw [Node.inorder_node]
  simp

/-- The leftmost node holds the first in-order entry. -/
theorem find_leftmost_eq_head (t : Node K V) :
    t.find_leftmost_node = t.inorder.head? := by
  induction t with
  | nil => rfl
  | node l k v r h ihl ihr =>
    rcases l with _ | ⟨a, b, c, d, e⟩
    · rw [show (Node.node Node.nil k v r h).find_leftmost_node = some (k, v) from rfl]
      simp
    · rw [show (Node.node (Node.node a b c d e) k v r h).find_leftmost_node
        = (Node.node a b c d e).find_leftmost_node from rfl, ihl, Node.inorder_node]
      rcases hq : (Node.node a b c d e).inorder with _ | ⟨e2, es⟩
      · exact absurd hq (inorder_ne_nil _ _ _ _ _)
      · simp

/-- The rightmost node holds the last in-order entry. -/
theorem find_rightmost_eq_getLast (t : Node K V) :
    t.find_rightmost_node = t.inorder.getLast? := by
  induction t with
  | nil => rfl
  | node l k v r h ihl ihr =>
    rcases r with _ | ⟨a, b, c, d, e⟩
    · rw [show (Node.node l k v Node.nil h).find_rightmost_node = some (k, v) from rfl,
        Node.inorder_node, List.getLast?_append_cons]
      rfl
    · rw [show (Node.node l k v (Node.node a b c d e) h).find_rightmost_node
        = (Node.node a b c d e).find_rightmost_node from rfl, ihr,
        show (Node.node l k v (Node.node a b c d e) h).inorder
          = l.inorder ++ (k, v) :: (Node.node a b c d e).inorder from rfl,
        List.getLast?_append_cons]
      rcases hq : (Node.node a b c d e).inorder with _ | ⟨e2, es⟩
      · exact absurd hq (inorder_ne_nil _ _ _ _ _)
      · rw [List.getLast?_cons_cons]

/-- Removing a key the descent cannot find leaves the subtree untouched and
returns `none`. -/
theorem removeGo_of_get_none [LinearOrder K] (key : K) {t : Node K V}
    (hg : getGo key t = none) : removeGo key t = (none, t) := by
  induction t with
  | nil => rfl
  | node l k v r h ihl ihr =>
    rcases lt_trichotomy key k with hlt | hceq | hgt
    · rw [getGo, if_pos hlt] at hg
      rw [removeGo, if_pos hlt, ihl hg]
    · subst hceq
      rw [getGo, if_neg (lt_irrefl key), if_neg (lt_irrefl key)] at hg
      exact absurd hg (by simp)
    · rw [getGo, if_neg (lt_asymm hgt), if_pos hgt] at hg
      rw [removeGo, if_neg (lt_asymm hgt), if_pos hgt, ihr hg]

/-- The zipper walk consumes its context one frame at a time: processing a
slot and stepping to the parent, whatever the stop-factor argument says and
whatever the balance factors along the way are. -/
theorem walk_step (sf : Int) (c : Ctx K V) (t : Node K V) :
    update_heights_and_rebalance sf c t
      = match c with
        | .top => fixSlot t
        | .inLeft k v r h c2 =>
          update_heights_and_rebalance sf c2 (.node (fixSlot t) k v r h)
        | .inRight k v l h c2 =>
          update_heights_and_rebalance sf c2 (.node l k v (fixSlot t) h) := by
  cases c <;> rfl

/-- The walk never reads its stop-factor argument. -/
theorem walk_stop_factor_irrelevant (sf sf2 : Int) (c : Ctx K V) (t : Node K V) :
    update_heights_and_rebalance sf c t = update_heights_and_rebalance sf2 c t := by
  induction c generalizing t with
  | top => rfl
  | inLeft k v r h c2 ih => exact ih _
  | inRight k v l h c2 ih => exact ih _

/-- The literal descent-and-walk form of `insert` agrees with the
structural-recursion form: a fresh insertion is followed by the walk from
the new leaf's parent through the whole context, a replacement reassembles
the context untouched. -/
theorem insertDescend_eq_insertGo [LinearOrder K] (k : K) (v : V) (t : Node K V)
    (c : Ctx K V) :
    insertDescend k v c t
      = (match insertGo t k v with
         | (t2, none) =>
           match c with
           | .top => t2
           | .inLeft pk pv pr ph c2 =>
             update_heights_and_rebalance 0 c2 (.node t2 pk pv pr ph)
           | .inRight pk pv pl ph c2 =>
             update_heights_and_rebalance 0 c2 (.node pl pk pv t2 ph)
         | (t2, some _) => plug c t2,
         (insertGo t k v).2) := by
  induction t generalizing c with
  | nil => cases c <;> rfl
  | node l key val r h ihl ihr =>
    rcases lt_trichotomy k key with hlt | hceq | hgt
    · have hstep : insertDescend k v c (Node.node l key val r h)
          = insertDescend k v (.inLeft key val r h c) l := by
        rw [insertDescend, if_pos hlt]
      rw [hstep, ihl]
      rcases hp : insertGo l k v with ⟨l2, ret⟩
      have hins : insertGo (Node.node l key val r h) k v
          = match insertGo l k v with
            | (l2, none) => (fixSlot (Node.node l2 key val r h), none)
            | (l2, some ov) => (Node.node l2 key val r h, some ov) := by
        rw [insertGo, if_pos hlt]
      rw [hins, hp]
      cases ret with
      | none =>
        dsimp only
        rw [walk_step]
      | some ov => rfl
    · subst hceq
      have hstep : insertDescend k v c (Node.node l k val r h)
          = (plug c (Node.node l k v r h), some val) := by
        rw [insertDescend, if_neg (lt_irrefl k), if_neg (lt_irrefl k)]
      have hins : insertGo (Node.node l k val r h) k v
          = (Node.node l k v r h, some val) := by
        rw [insertGo, if_neg (lt_irrefl k), if_neg (lt_irrefl k)]
      rw [hstep, hins]
    · have hstep : insertDescend k v c (Node.node l key val r h)
          = insertDescend k v (.inRight key val l h c) r := by
        rw [insertDescend, if_neg (lt_asymm hgt), if_pos hgt]
      rw [hstep, ihr]
      rcases hp : insertGo r k v with ⟨r2, ret⟩
      have hins : insertGo (Node.node l key val r h) k v
          = match insertGo r k v with
            | (r2, none) => (fixSlot (Node.node l key val r2 h), none)
            | (r2, some ov) => (Node.node l key val r2 h, some ov) := by
        rw [insertGo, if_neg (lt_asymm hgt), if_pos hgt]
      rw [hins, hp]
      cases ret with
      | none =>
        dsimp only
        rw [walk_step]
      | some ov => rfl

/-- At the root slot the two forms of insertion coincide exactly. -/
theorem insertDescend_top [LinearOrder K] (k : K) (v : V) (t : Node K V) :
    insertDescend k v Ctx.top t = insertGo t k v := by
  rw [insertDescend_eq_insertGo]
  rcases hp : insertGo t k v with ⟨t2, ret⟩
  cases ret <;> rfl

theorem RefMap.insert_length_none [LinearOrder K] {k : K} {v : V} {m : List (K × V)}
    (h : (RefMap.insert k v m).2 = none) :
    (RefMap.insert k v m).1.length = m.length + 1 := by
  induction m with
  | nil => rfl
  | cons e m ih =>
    obtain ⟨k2, v2⟩ := e
    by_cases h1 : k < k2
    · simp [RefMap.insert, h1]
    · by_cases h2 : k2 < k
      · simp only [RefMap.insert, if_neg h1, if_pos h2] at h ⊢
        simp [ih h]
      · simp [RefMap.insert, h1, h2] at h

theorem RefMap.insert_length_some [LinearOrder K] {k : K} {v ov : V} {m : List (K × V)}
    (h : (RefMap.insert k v m).2 = some ov) :
    (RefMap.insert k v m).1.length = m.length := by
  induction m with
  | nil => simp [RefMap.insert] at h
  | cons e m ih =>
    obtain ⟨k2, v2⟩ := e
    by_cases h1 : k < k2
    · simp [RefMap.insert, h1] at h
    · by_cases h2 : k2 < k
      · simp only [RefMap.insert, if_neg h1, if_pos h2] at h ⊢
        simp [ih h]
      · simp [RefMap.insert, h1, h2]

theorem RefMap.erase_length_some [LinearOrder K] {k : K} {ov : V} {m : List (K × V)}
    (h : (RefMap.erase k m).2 = some ov) :
    (RefMap.erase k m).1.length + 1 = m.length := by
  induction m with
  | nil => simp [RefMap.erase] at h
  | cons e m ih =>
    obtain ⟨k2, v2⟩ := e
    by_cases h1 : k < k2
    · simp [RefMap.erase, h1] at h
    · by_cases h2 : k2 < k
      · simp only [RefMap.erase, if_neg h1, if_pos h2] at h ⊢
        simp [ih h]
      · simp [RefMap.erase, h1, h2]

/-- Container-level insert: the invariant is preserved and the observable
effects agree with the reference map. -/
theorem AvlTree.insert_spec [LinearOrder K] {t : AvlTree K V} (hi : Inv t) (k : K) (v : V) :
    Inv (t.insert k v).1 ∧
    (t.insert k v).1.root.inorder = (RefMap.insert k v t.root.inorder).1 ∧
    (t.insert k v).2 = (RefMap.insert k v t.root.inorder).2 := by
  obtain ⟨⟨hk, b, s⟩, hsz⟩ := hi
  have IG := insertGo_spec k v hk b s
  obtain ⟨IG1, IG2, IG3, IG4, _, _, _⟩ := IG
  rcases hp : insertGo t.root k v with ⟨r2, ret⟩
  rw [hp] at IG1 IG2 IG3 IG4
  dsimp only at IG1 IG2 IG3 IG4
  have hI : t.insert k v = match (r2, ret) with
      | (r, none) => (⟨r, t.size + 1⟩, none)
      | (r, some ov) => (⟨r, t.size⟩, some ov) := by
    rw [AvlTree.insert, insertDescend_top, hp]
  cases ret with
  | none =>
    rw [hI]
    refine ⟨⟨⟨IG1, IG2, ?_⟩, ?_⟩, IG3, IG4⟩
    · rw [IG3]
      exact RefMap.insert_sorted k v s
    · show t.size + 1 = r2.inorder.length
      rw [IG3, RefMap.insert_length_none IG4.symm, hsz]
  | some ov =>
    rw [hI]
    refine ⟨⟨⟨IG1, IG2, ?_⟩, ?_⟩, IG3, IG4⟩
    · rw [IG3]
      exact RefMap.insert_sorted k v s
    · show t.size = r2.inorder.length
      rw [IG3, RefMap.insert_length_some IG4.symm, hsz]

/-- Container-level remove: the invariant is preserved and the observable
effects agree with the reference map. -/
theorem AvlTree.remove_spec [LinearOrder K] {t : AvlTree K V} (hi : Inv t) (k : K) :
    Inv (t.remove k).1 ∧
    (t.remove k).1.root.inorder = (RefMap.erase k t.root.inorder).1 ∧
    (t.remove k).2 = (RefMap.erase k t.root.inorder).2 := by
  obtain ⟨⟨hk, b, s⟩, hsz⟩ := hi
  have RG := removeGo_spec k hk b s
  obtain ⟨RG1, RG2, RG3, RG4, _, _, RG7⟩ := RG
  rcases hp : removeGo k t.root with ⟨ret, r2⟩
  rw [hp] at RG1 RG2 RG3 RG4 RG7
  dsimp only at RG1 RG2 RG3 RG4 RG7
  have hI : t.remove k = match (ret, r2) with
      | (none, _) => (t, none)
      | (some ov, r) => (⟨r, t.size - 1⟩, some ov) := by
    rw [AvlTree.remove, hp]
  cases ret with
  | none =>
    rw [hI]
    have hnone : (RefMap.erase k t.root.inorder).1 = t.root.inorder :=
      RefMap.erase_of_ret_none RG4.symm
    exact ⟨⟨⟨hk, b, s⟩, hsz⟩, hnone.symm, RG4⟩
  | some ov =>
    rw [hI]
    refine ⟨⟨⟨RG1, RG2, ?_⟩, ?_⟩, RG3, RG4⟩
    · rw [RG3]
      exact RefMap.erase_sorted k s
    · show t.size - 1 = r2.inorder.length
      rw [RG3, hsz]
      have := @RefMap.erase_length_some K V _ k ov t.root.inorder (RG4.symm)
      omega

/-- Every tree reachable from the empty tree satisfies the invariant, and
its in-order sequence is exactly the reference map driven by the same
operations. -/
theorem run_spec [LinearOrder K] (ops : List (Op K V)) :
    Inv (run ops) ∧ (run ops).root.inorder = runModel ops := by
  have main : ∀ (t : AvlTree K V) (m : List (K × V)), Inv t → t.root.inorder = m →
      Inv (ops.foldl applyOp t) ∧
        (ops.foldl applyOp t).root.inorder = ops.foldl applyModelOp m := by
    induction ops with
    | nil => exact fun t m h1 h2 => ⟨h1, h2⟩
    | cons op ops ih =>
      intro t m h1 h2
      rw [List.foldl_cons, List.foldl_cons]
      cases op with
      | ins k v =>
        obtain ⟨j1, j2, _⟩ := AvlTree.insert_spec h1 k v
        refine ih _ _ j1 ?_
        show (t.insert k v).1.root.inorder = (RefMap.insert k v m).1
        rw [j2, h2]
      | del k =>
        obtain ⟨j1, j2, _⟩ := AvlTree.remove_spec h1 k
        refine ih _ _ j1 ?_
        show (t.remove k).1.root.inorder = (RefMap.erase k m).1
        rw [j2, h2]
  exact main AvlTree.new [] ⟨⟨HeightsOk.nil, BalancedT.nil, List.Pairwise.nil⟩, rfl⟩ rfl

@[simp] theorem upList_top : upList (Ctx.top : Ctx K V) = [] := rfl

@[simp] theorem upList_inLeft (k : K) (v : V) (r : Node K V) (h : Nat) (c : Ctx K V) :
    upList (Ctx.inLeft k v r h c) = (k, v) :: r.inorder ++ upList c := rfl

@[simp] theorem upList_inRight (k : K) (v : V) (l : Node K V) (h : Nat) (c : Ctx K V) :
    upList (Ctx.inRight k v l h c) = upList c := rfl

@[simp] theorem afterList_node (c : Ctx K V) (l : Node K V) (k : K) (v : V)
    (r : Node K V) (h : Nat) :
    afterList (c, Node.node l k v r h) = (k, v) :: r.inorder ++ upList c := rfl

/-- Descending to the leftmost node prepends nothing: the entries at or
after the reached position are the subtree's entries followed by the
context's. -/
theorem leftmostPos_spec (t : Node K V) (c : Ctx K V) (hne : t ≠ Node.nil) :
    (leftmostPos c t).2 ≠ Node.nil ∧
    afterList (leftmostPos c t) = t.inorder ++ upList c := by
  induction t generalizing c with
  | nil => exact absurd rfl hne
  | node l k v r h ihl ihr =>
    rcases l with _ | ⟨a, b, cc, d, e⟩
    · refine ⟨by rw [show leftmostPos c (Node.node Node.nil k v r h)
        = (c, Node.node Node.nil k v r h) from rfl]; simp, ?_⟩
      rw [show leftmostPos c (Node.node Node.nil k v r h)
        = (c, Node.node Node.nil k v r h) from rfl]
      simp
    · rw [show leftmostPos c (Node.node (Node.node a b cc d e) k v r h)
        = leftmostPos (.inLeft k v r h c) (Node.node a b cc d e) from rfl]
      obtain ⟨h1, h2⟩ := ihl (.inLeft k v r h c) (by simp)
      refine ⟨h1, ?_⟩
      rw [h2]
      simp

theorem emitNexts_none (f : Nat) :
    emitNexts f (none : Option (Ctx K V × Node K V)) = [] := by
  cases f <;> rfl

/-- Climbing the parent chain from a right spine yields the entries the
context still owes: nothing when the chain ends at the root, otherwise the
first left-ancestor's entry and everything after it. -/
theorem walkUp_spec (c : Ctx K V) (cur : Node K V) :
    (walkUpWhileRightChild c cur = none ∧ upList c = []) ∨
    (∃ p2, walkUpWhileRightChild c cur = some p2 ∧ p2.2 ≠ Node.nil ∧
      afterList p2 = upList c) := by
  induction c generalizing cur with
  | top => exact Or.inl ⟨rfl, rfl⟩
  | inLeft pk pv pr ph c2 ih =>
    right
    exact ⟨(c2, .node cur pk pv pr ph), rfl, by simp, by simp⟩
  | inRight pk pv pl ph c2 ih =>
    rw [show walkUpWhileRightChild (Ctx.inRight pk pv pl ph c2) cur
      = walkUpWhileRightChild c2 (.node pl pk pv cur ph) from rfl, upList_inRight]
    exact ih (.node pl pk pv cur ph)

/-- The successor step consumes exactly one entry of the remaining in-order
sequence. -/
theorem succPos_spec (c : Ctx K V) (l r : Node K V) (k : K) (v : V) (h : Nat) :
    (succPos (c, Node.node l k v r h) = none ∧ r.inorder ++ upList c = []) ∨
    (∃ p2, succPos (c, Node.node l k v r h) = some p2 ∧ p2.2 ≠ Node.nil ∧
      afterList p2 = r.inorder ++ upList c) := by
  rcases r with _ | ⟨a, b, cc, d, e⟩
  · rw [show succPos (c, Node.node l k v Node.nil h)
      = walkUpWhileRightChild c (Node.node l k v Node.nil h) from rfl]
    rcases walkUp_spec c (.node l k v .nil h) with ⟨h1, h2⟩ | ⟨p2, h1, h2, h3⟩
    · exact Or.inl ⟨h1, by simp [h2]⟩
    · exact Or.inr ⟨p2, h1, h2, by simp [h3]⟩
  · right
    rw [show succPos (c, Node.node l k v (Node.node a b cc d e) h)
      = some (leftmostPos (.inRight k v l h c) (Node.node a b cc d e)) from rfl]
    obtain ⟨h1, h2⟩ := leftmostPos_spec (.node a b cc d e) (.inRight k v l h c) (by simp)
    exact ⟨_, rfl, h1, by rw [h2]; simp⟩

/-- Pulling the iterator with enough fuel yields exactly the entries at and
after the current position, in order. -/
theorem emitNexts_spec (f : Nat) : ∀ (p : Ctx K V × Node K V), p.2 ≠ Node.nil →
    (afterList p).length ≤ f → emitNexts f (some p) = afterList p := by
  induction f with
  | zero =>
    rintro ⟨c, _ | ⟨l, k, v, r, h⟩⟩ hp hlen
    · exact absurd rfl hp
    · simp at hlen
  | succ f ih =>
    rintro ⟨c, _ | ⟨l, k, v, r, h⟩⟩ hp hlen
    · exact absurd rfl hp
    · rw [show emitNexts (f + 1) (some (c, Node.node l k v r h))
        = (k, v) :: emitNexts f (succPos (c, Node.node l k v r h)) from rfl]
      rcases succPos_spec c l r k v h with ⟨h1, h2⟩ | ⟨p2, h1, h2, h3⟩
      · rw [h1, emitNexts_none, afterList_node]
        obtain ⟨hr, hc⟩ := List.append_eq_nil.1 h2
        simp [hr, hc]
      · have hlen2 : (afterList p2).length ≤ f := by
          rw [h3]
          rw [afterList_node] at hlen
          simp at hlen ⊢
          omega
        rw [h1, ih p2 h2 hlen2, h3, afterList_node]
        simp

/-- With enough fuel the iterator enumerates the tree's in-order entries
exactly (and further pulls yield nothing). -/
theorem iterList_eq_inorder (t : AvlTree K V) (f : Nat)
    (hf : t.root.inorder.length ≤ f) : t.iterList f = t.root.inorder := by
  rw [AvlTree.iterList]
  rcases ht : t.root with _ | ⟨l, k, v, r, h⟩
  · rw [show startPos (Node.nil : Node K V) = none from rfl, emitNexts_none]
    rfl
  · rw [ht] at hf
    rw [show startPos (Node.node l k v r h)
      = some (leftmostPos .top (Node.node l k v r h)) from rfl]
    obtain ⟨h1, h2⟩ := leftmostPos_spec (.node l k v r h) .top (by simp)
    rw [emitNexts_spec f _ h1 (by rw [h2]; simpa using hf), h2]
    simp

/-- An insertion that finds its key already present replaces the stored
value in place: it returns the old value, leaves the skeleton (structure,
keys and cached heights) untouched, and changes no other binding. -/
theorem insertGo_dup [LinearOrder K] (k : K) (v : V) {t : Node K V} {v0 : V}
    (hg : getGo k t = some v0) :
    (insertGo t k v).2 = some v0 ∧
    (insertGo t k v).1.shape = t.shape ∧
    getGo k (insertGo t k v).1 = some v ∧
    (∀ k2, k2 ≠ k → getGo k2 (insertGo t k v).1 = getGo k2 t) := by
  induction t with
  | nil => exact absurd hg (by rw [getGo]; simp)
  | node l key val r h ihl ihr =>
    rcases lt_trichotomy k key with hlt | hceq | hgt
    · rw [getGo, if_pos hlt] at hg
      obtain ⟨J1, J2, J3, J4⟩ := ihl hg
      rcases hp : insertGo l k v with ⟨l2, ret⟩
      rw [hp] at J1 J2 J3 J4
      dsimp only at J1 J2 J3 J4
      rw [J1] at hp
      have hins : insertGo (Node.node l key val r h) k v
          = (Node.node l2 key val r h, some v0) := by
        rw [insertGo, if_pos hlt, hp]
      rw [hins]
      refine ⟨rfl, by simp [Node.shape, J2], ?_, ?_⟩
      · show getGo k (Node.node l2 key val r h) = some v
        rw [getGo, if_pos hlt]
        exact J3
      · intro k2 hk2
        show getGo k2 (Node.node l2 key val r h) = getGo k2 (Node.node l key val r h)
        rcases lt_trichotomy k2 key with m1 | m2 | m3
        · rw [getGo, if_pos m1, getGo, if_pos m1]
          exact J4 k2 hk2
        · subst m2
          rw [getGo, if_neg (lt_irrefl _), if_neg (lt_irrefl _), getGo,
            if_neg (lt_irrefl _), if_neg (lt_irrefl _)]
        · rw [getGo, if_neg (lt_asymm m3), if_pos m3, getGo, if_neg (lt_asymm m3), if_pos m3]
    · subst hceq
      rw [getGo, if_neg (lt_irrefl k), if_neg (lt_irrefl k)] at hg
      have hins : insertGo (Node.node l k val r h) k v = (Node.node l k v r h, some val) := by
        rw [insertGo, if_neg (lt_irrefl k), if_neg (lt_irrefl k)]
      rw [hins]
      refine ⟨hg, by simp [Node.shape], ?_, ?_⟩
      · show getGo k (Node.node l k v r h) = some v
        rw [getGo, if_neg (lt_irrefl k), if_neg (lt_irrefl k)]
      · intro k2 hk2
        show getGo k2 (Node.node l k v r h) = getGo k2 (Node.node l k val r h)
        rcases lt_trichotomy k2 k with m1 | m2 | m3
        · rw [getGo, if_pos m1, getGo, if_pos m1]
        · exact absurd m2 hk2
        · rw [getGo, if_neg (lt_asymm m3), if_pos m3, getGo, if_neg (lt_asymm m3), if_pos m3]
    · rw [getGo, if_neg (lt_asymm hgt), if_pos hgt] at hg
      obtain ⟨J1, J2, J3, J4⟩ := ihr hg
      rcases hp : insertGo r k v with ⟨r2, ret⟩
      rw [hp] at J1 J2 J3 J4
      dsimp only at J1 J2 J3 J4
      rw [J1] at hp
      have hins : insertGo (Node.node l key val r h) k v
          = (Node.node l key val r2 h, some v0) := by
        rw [insertGo, if_neg (lt_asymm hgt), if_pos hgt, hp]
      rw [hins]
      refine ⟨rfl, by simp [Node.shape, J2], ?_, ?_⟩
      · show getGo k (Node.node l key val r2 h) = some v
        rw [getGo, if_neg (lt_asymm hgt), if_pos hgt]
        exact J3
      · intro k2 hk2
        show getGo k2 (Node.node l key val r2 h) = getGo k2 (Node.node l key val r h)
        rcases lt_trichotomy k2 key with m1 | m2 | m3
        · rw [getGo, if_pos m1, getGo, if_pos m1]
        · subst m2
          rw [getGo, if_neg (lt_irrefl _), if_neg (lt_irrefl _), getGo,
            if_neg (lt_irrefl _), if_neg (lt_irrefl _)]
        · rw [getGo, if_neg (lt_asymm m3), if_pos m3, getGo, if_neg (lt_asymm m3), if_pos m3]
          exact J4 k2 hk2

theorem sortedKeys_nodup [LinearOrder K] {m : List (K × V)} (s : SortedKeys m) :
    (m.map Prod.fst).Nodup :=
  List.Pairwise.map Prod.fst (fun _ _ h => ne_of_lt h) s

namespace Bloom

theorem insertB_eq {α : Type} (hash : α → Nat → Nat) (f : BloomFilter) (x : α) :
    insertB hash f x
      = ⟨f.bits ||| 1 <<< (hash x 0 % 128) ||| 1 <<< (hash x 1 % 128)⟩ := rfl

theorem containsB_eq {α : Type} (hash : α → Nat → Nat) (f : BloomFilter) (x : α) :
    containsB hash f x
      = (!(f.bits &&& 1 <<< (hash x 0 % 128) == 0) &&
         (!(f.bits &&& 1 <<< (hash x 1 % 128) == 0) && true)) := rfl

theorem and_shiftLeft_beq_zero (x n : Nat) :
    (x &&& 1 <<< n == 0) = !x.testBit n := by
  rw [Nat.shiftLeft_eq, one_mul, Nat.and_two_pow]
  cases hx : x.testBit n
  · simp
  · simp [(Nat.two_pow_pos n).ne']

theorem containsB_of_testBit {α : Type} (hash : α → Nat → Nat) (f : BloomFilter) (x : α)
    (h0 : f.bits.testBit (hash x 0 % 128) = true)
    (h1 : f.bits.testBit (hash x 1 % 128) = true) :
    containsB hash f x = true := by
  rw [containsB_eq, and_shiftLeft_beq_zero, and_shiftLeft_beq_zero, h0, h1]
  rfl

theorem testBit_insertB {α : Type} (hash : α → Nat → Nat) (f : BloomFilter) (y : α)
    (i : Nat) (h : f.bits.testBit i = true) :
    (insertB hash f y).bits.testBit i = true := by
  rw [insertB_eq]
  show (f.bits ||| _ ||| _).testBit i = true
  rw [Nat.testBit_or, Nat.testBit_or, h]
  rfl

theorem testBit_insertB_self {α : Type} (hash : α → Nat → Nat) (f : BloomFilter) (x : α)
    (i : Nat) (hi : i < 2) :
    (insertB hash f x).bits.testBit (hash x i % 128) = true := by
  rw [insertB_eq]
  show (f.bits ||| 1 <<< (hash x 0 % 128) ||| 1 <<< (hash x 1 % 128)).testBit _ = true
  rcases (show i = 0 ∨ i = 1 by omega) with hv | hv <;> subst hv <;>
    simp [Nat.testBit_or, Nat.shiftLeft_eq, Nat.testBit_two_pow_self]

end Bloom

/-! The claims. -/

/-- C1: For every finite sequence of insert and remove operations applied
from the empty tree, the observable results match the reference ordered map
at every step: insert and remove return the same optional old value,
get/contains/min/max return the same answers, `size()` equals the
reference's size, and iter()/keys()/values() (pulled at least as many times
as there are entries) enumerate exactly the reference's entries in
ascending key order. -/
theorem C1_differential_refinement [LinearOrder K] (ops : List (Op K V)) :
    (∀ extra, (run ops).iterList ((runModel ops).length + extra) = runModel ops) ∧
    (∀ extra, (run ops).keysList ((runModel ops).length + extra)
      = (runModel ops).map Prod.fst) ∧
    (∀ extra, (run ops).valuesList ((runModel ops).length + extra)
      = (runModel ops).map Prod.snd) ∧
    (∀ k, (run ops).get k = RefMap.get k (runModel ops)) ∧
    (∀ k, (run ops).contains k = (RefMap.get k (runModel ops)).isSome) ∧
    (run ops).min = (runModel ops).head? ∧
    (run ops).max = (runModel ops).getLast? ∧
    (run ops).size = (runModel ops).length ∧
    (∀ k v, ((run ops).insert k v).2 = (RefMap.insert k v (runModel ops)).2) ∧
    (∀ k, ((run ops).remove k).2 = (RefMap.erase k (runModel ops)).2) := by
  obtain ⟨hInv, hio⟩ := run_spec ops
  obtain ⟨⟨hk, b, s⟩, hsz⟩ := hInv
  have hit : ∀ extra, (run ops).iterList ((runModel ops).length + extra) = runModel ops := by
    intro extra
    rw [iterList_eq_inorder _ _ (by rw [hio]; omega), hio]
  refine ⟨hit, ?_, ?_, ?_, ?_, ?_, ?_, ?_, ?_, ?_⟩
  · intro extra
    rw [AvlTree.keysList, hit]
  · intro extra
    rw [AvlTree.valuesList, hit]
  · intro k
    rw [AvlTree.get, getGo_eq_refMap k s, hio]
  · intro k
    rw [AvlTree.contains, AvlTree.get, getGo_eq_refMap k s, hio]
  · rw [AvlTree.min, find_leftmost_eq_head, hio]
  · rw [AvlTree.max, find_rightmost_eq_getLast, hio]
  · rw [hsz, hio]
  · intro k v
    obtain ⟨_, _, j3⟩ := AvlTree.insert_spec ⟨⟨hk, b, s⟩, hsz⟩ k v
    rw [j3, hio]
  · intro k
    obtain ⟨_, _, j3⟩ := AvlTree.remove_spec ⟨⟨hk, b, s⟩, hsz⟩ k
    rw [j3, hio]

/-- C2: after every public mutating call completes, every node of the tree
satisfies `|left subtree height - right subtree height| ≤ 1`, equivalently
`|balance_factor()| ≤ 1`, for every tree reachable from the empty tree by
public operations. -/
theorem C2_balance_invariant [LinearOrder K] (ops : List (Op K V)) :
    AllNodes (fun n => n.left_height ≤ n.right_height + 1 ∧
      n.right_height ≤ n.left_height + 1 ∧ n.balance_factor.natAbs ≤ 1)
      (run ops).root := by
  obtain ⟨⟨⟨hk, b, _⟩, _⟩, _⟩ := run_spec ops
  exact allNodes_balance hk b

/-- C3: after every public operation, every node of the tree satisfies the
binary-search-tree ordering — all keys in its left subtree strictly below
the node's key, all keys in its right subtree strictly above — for every
tree reachable from the empty tree by public operations. -/
theorem C3_bst_invariant [LinearOrder K] (ops : List (Op K V)) : BST (run ops).root := by
  obtain ⟨⟨⟨_, _, s⟩, _⟩, _⟩ := run_spec ops
  exact bst_iff_sorted.2 s

/-- C4: on a reachable tree already containing key `k` with value `v0`,
`insert(k, v1)` returns `Some(v0)`, replaces the stored value in place,
leaves `size()` unchanged, performs no structural change and no rebalancing
(the skeleton with all keys, positions and cached heights is unchanged and
no other binding moves), and at most one node per key ever exists (the
stored keys are pairwise distinct). -/
theorem C4_duplicate_insert [LinearOrder K] (ops : List (Op K V)) (k : K) (v0 v1 : V)
    (hg : (run ops).get k = some v0) :
    ((run ops).insert k v1).2 = some v0 ∧
    ((run ops).insert k v1).1.get k = some v1 ∧
    ((run ops).insert k v1).1.size = (run ops).size ∧
    ((run ops).insert k v1).1.root.shape = (run ops).root.shape ∧
    (∀ k2, k2 ≠ k → ((run ops).insert k v1).1.get k2 = (run ops).get k2) ∧
    ((run ops).root.inorder.map Prod.fst).Nodup := by
  obtain ⟨J1, J2, J3, J4⟩ := insertGo_dup k v1 hg
  rcases hp : insertGo (run ops).root k v1 with ⟨r2, ret⟩
  rw [hp] at J1 J2 J3 J4
  dsimp only at J1 J2 J3 J4
  rw [J1] at hp
  have hI : (run ops).insert k v1 = (⟨r2, (run ops).size⟩, some v0) := by
    rw [AvlTree.insert, insertDescend_top, hp]
  rw [hI]
  obtain ⟨⟨⟨_, _, s⟩, _⟩, _⟩ := run_spec ops
  exact ⟨rfl, J3, rfl, J2, J4, sortedKeys_nodup s⟩

/-- C4 witness: a concrete duplicate insertion. -/
theorem C4_duplicate_insert_witness :
    ((run [Op.ins (10 : Int) (1 : Int)]).get 10 = some 1) ∧
    ((run [Op.ins (10 : Int) (1 : Int)]).insert 10 2).2 = some 1 := by
  refine ⟨by decide, ?_⟩
  exact (C4_duplicate_insert [Op.ins 10 1] 10 1 2 (by decide)).1

/-- C5: building the tree from the keys 5, 3, 7, 2, 4, 6, 8 in that order and
removing 7 (a node with two children, replaced by its in-order successor 8,
the leftmost node of its right subtree) leaves 8 as the root's right child
with 6 as 8's left child; `get(7)` becomes `None` and every other key stays
present. -/
theorem C5_two_children_removal :
    (run [Op.ins (5 : Int) (5 : Int), Op.ins 3 3, Op.ins 7 7, Op.ins 2 2, Op.ins 4 4,
      Op.ins 6 6, Op.ins 8 8, Op.del 7]).root.right_child.keyOf = some 8 ∧
    (run [Op.ins (5 : Int) (5 : Int), Op.ins 3 3, Op.ins 7 7, Op.ins 2 2, Op.ins 4 4,
      Op.ins 6 6, Op.ins 8 8, Op.del 7]).root.right_child.left_child.keyOf = some 6 ∧
    (run [Op.ins (5 : Int) (5 : Int), Op.ins 3 3, Op.ins 7 7, Op.ins 2 2, Op.ins 4 4,
      Op.ins 6 6, Op.ins 8 8, Op.del 7]).get 7 = none ∧
    (run [Op.ins (5 : Int) (5 : Int), Op.ins 3 3, Op.ins 7 7, Op.ins 2 2, Op.ins 4 4,
      Op.ins 6 6, Op.ins 8 8, Op.del 7]).keysList 6 = [2, 3, 4, 5, 6, 8] := by
  decide

/-- C6: the rotation-selection step of the rebalancing walk decides between
the simple and the composite rotation by the child's balance factor alone:
at factor -2 it rotates left when the right child's factor is 0 or -1 and
performs the composite (right-then-left) rotation when it is +1; at +2 it
rotates right when the left child's factor is 0 or +1 and performs the
composite (left-then-right) rotation when it is -1. -/
theorem C6_rotation_selection (t : Node K V) :
    (t.balance_factor = -2 →
      ((t.right_child.balance_factor = 0 ∨ t.right_child.balance_factor = -1) →
        rebalanceRotate t = t.rotate_left) ∧
      (t.right_child.balance_factor = 1 → rebalanceRotate t = t.big_rotate_left)) ∧
    (t.balance_factor = 2 →
      ((t.left_child.balance_factor = 0 ∨ t.left_child.balance_factor = 1) →
        rebalanceRotate t = t.rotate_right) ∧
      (t.left_child.balance_factor = -1 → rebalanceRotate t = t.big_rotate_right)) := by
  constructor
  · intro h1
    exact ⟨fun h3 => rebalanceRotate_neg2_single t h1 h3.symm,
      fun h3 => rebalanceRotate_neg2_double t h1 h3⟩
  · intro h1
    exact ⟨fun h3 => rebalanceRotate_pos2_single t h1 h3.symm,
      fun h3 => rebalanceRotate_pos2_double t h1 h3⟩

/-- C6 witness: a concrete right-heavy node whose right child has balance
factor 0 is handled by a single left rotation. -/
theorem C6_rotation_selection_witness :
    rebalanceRotate (Node.node Node.nil (0 : Int) (0 : Int)
        (Node.node Node.nil 1 1 Node.nil 2) 9)
      = (Node.node Node.nil (0 : Int) (0 : Int)
        (Node.node Node.nil 1 1 Node.nil 2) 9).rotate_left :=
  ((C6_rotation_selection _).1 (by decide)).1 (by decide)

/-- C7: removing a key the tree does not contain returns `None` and leaves
the container (root and size) completely unchanged; absence is an empty
result, not a failure. -/
theorem C7_remove_absent [LinearOrder K] (t : AvlTree K V) (k : K)
    (h : t.contains k = false) : t.remove k = (t, none) := by
  have hg : getGo k t.root = none := by
    rcases hq : t.get k with _ | v
    · exact hq
    · rw [AvlTree.contains, hq] at h
      simp at h
  rw [AvlTree.remove, removeGo_of_get_none k hg]

/-- C7 witness: removing an absent key from a concrete tree. -/
theorem C7_remove_absent_witness :
    ((run [Op.ins (1 : Int) (2 : Int)]).contains 5 = false) ∧
    (run [Op.ins (1 : Int) (2 : Int)]).remove 5 = (run [Op.ins (1 : Int) (2 : Int)], none) :=
  ⟨by decide, C7_remove_absent _ 5 (by decide)⟩

/-- C8: `rotate_left` on a slot whose node has no right child, and
`rotate_right` on a slot whose node has no left child, are no-ops, as is
either rotation on an empty slot. -/
theorem C8_rotation_noop :
    (∀ (l : Node K V) (k : K) (v : V) (h : Nat),
      Node.rotate_left (Node.node l k v Node.nil h) = Node.node l k v Node.nil h) ∧
    Node.rotate_left (Node.nil : Node K V) = Node.nil ∧
    (∀ (r : Node K V) (k : K) (v : V) (h : Nat),
      Node.rotate_right (Node.node Node.nil k v r h) = Node.node Node.nil k v r h) ∧
    Node.rotate_right (Node.nil : Node K V) = Node.nil :=
  ⟨fun _ _ _ _ => rfl, rfl, fun _ _ _ _ => rfl, rfl⟩

/-- C9: the approximate-membership filter has no false negatives: after
`insert(item)`, every later `contains(item)` returns true across any further
insertions, as long as no `clear()` intervenes. -/
theorem C9_no_false_negatives {α : Type} (hash : α → Nat → Nat) (f : Bloom.BloomFilter)
    (x : α) (ops : List (Bloom.BOp α)) (hclr : Bloom.BOp.clr ∉ ops) :
    Bloom.containsB hash (ops.foldl (Bloom.applyBOp hash) (Bloom.insertB hash f x)) x
      = true := by
  have key : ∀ (ops2 : List (Bloom.BOp α)) (g : Bloom.BloomFilter),
      Bloom.BOp.clr ∉ ops2 →
      g.bits.testBit (hash x 0 % 128) = true → g.bits.testBit (hash x 1 % 128) = true →
      Bloom.containsB hash (ops2.foldl (Bloom.applyBOp hash) g) x = true := by
    intro ops2
    induction ops2 with
    | nil => exact fun g _ h0 h1 => Bloom.containsB_of_testBit hash g x h0 h1
    | cons op ops2 ih =>
      intro g hmem h0 h1
      rw [List.foldl_cons]
      cases op with
      | ins y =>
        exact ih _ (fun hm => hmem (List.mem_cons_of_mem _ hm))
          (Bloom.testBit_insertB hash g y _ h0) (Bloom.testBit_insertB hash g y _ h1)
      | clr => exact absurd (List.mem_cons_self _ _) hmem
  exact key ops _ hclr (Bloom.testBit_insertB_self hash f x 0 (by omega))
    (Bloom.testBit_insertB_self hash f x 1 (by omega))

/-- C9 witness: a concrete filter, item and operation sequence. -/
theorem C9_no_false_negatives_witness :
    (Bloom.BOp.clr ∉ [Bloom.BOp.ins (7 : Nat)]) ∧
    Bloom.containsB (fun x i => x + i)
      ([Bloom.BOp.ins (7 : Nat)].foldl (Bloom.applyBOp (fun x i => x + i))
        (Bloom.insertB (fun x i => x + i) Bloom.new 5)) 5 = true :=
  ⟨by decide, C9_no_false_negatives (fun x i => x + i) Bloom.new 5
    [Bloom.BOp.ins 7] (by decide)⟩

/-- C10: the rebalancing walk is one procedure for insertion and removal:
`update_heights_and_rebalance` never reads its stop-factor argument (so the
insert-time call with 0 and the removal-time calls with 1 are extensionally
equal), and from every start it processes the slot and every ancestor frame
up to the root — in particular it performs no early exit when a processed
slot's balance factor has returned to 0. -/
theorem C10_walk_uniform :
    (∀ (sf sf2 : Int) (c : Ctx K V) (t : Node K V),
      update_heights_and_rebalance sf c t = update_heights_and_rebalance sf2 c t) ∧
    (∀ (sf : Int) (k : K) (v : V) (r : Node K V) (h : Nat) (c : Ctx K V) (t : Node K V),
      update_heights_and_rebalance sf (Ctx.inLeft k v r h c) t
        = update_heights_and_rebalance sf c (Node.node (fixSlot t) k v r h)) ∧
    (∀ (sf : Int) (k : K) (v : V) (l : Node K V) (h : Nat) (c : Ctx K V) (t : Node K V),
      update_heights_and_rebalance sf (Ctx.inRight k v l h c) t
        = update_heights_and_rebalance sf c (Node.node l k v (fixSlot t) h)) ∧
    (∀ (sf : Int) (k : K) (v : V) (r : Node K V) (h : Nat) (c : Ctx K V) (t : Node K V),
      (fixSlot t).balance_factor = 0 →
      update_heights_and_rebalance sf (Ctx.inLeft k v r h c) t
        = update_heights_and_rebalance sf c (Node.node (fixSlot t) k v r h)) :=
  ⟨fun sf sf2 c t => walk_stop_factor_irrelevant sf sf2 c t,
   fun _ _ _ _ _ _ _ => rfl, fun _ _ _ _ _ _ _ => rfl, fun _ _ _ _ _ _ _ _ => rfl⟩

/-- C10 witness: a concrete continuation of the walk at a slot whose balance
factor is 0. -/
theorem C10_walk_uniform_witness :
    ((fixSlot (Node.nil : Node Int Int)).balance_factor = 0) ∧
    update_heights_and_rebalance 0 (Ctx.inLeft (1 : Int) (1 : Int) Node.nil 1 Ctx.top)
        (Node.nil : Node Int Int)
      = update_heights_and_rebalance 0 Ctx.top
        (Node.node (fixSlot Node.nil) 1 1 Node.nil 1) :=
  ⟨by decide, C10_walk_uniform.2.2.2 0 1 1 Node.nil 1 Ctx.top Node.nil (by decide)⟩

end Basalgo
